import Mathlib

/-!
# HFT-Orderbook: a shallow embedding of `src/funcs.c`

The C program keeps `Limit` and `Order` records in memory and links them by
pointers.  Here memory is a total map from addresses (`Nat`) to records, a
pointer is an `Option Nat` (`none` is `NULL`), and every C function becomes a
function on memories.  Loops carry a `fuel : Nat` argument; a run that needs
more iterations than `fuel` ends in `Fault.outOfFuel`, a dereference of `NULL`
in `Fault.nullDeref`.

C `double`s are modelled with exact arithmetic: a finite value is an integer,
and the three special values `-INFINITY`, `+INFINITY` and `NaN` are kept, with
the comparison and arithmetic rules of IEEE 754 (no rounding, no signed zero).
-/

namespace HFT

/-! ## Doubles with exact arithmetic -/

/-- A C `double`: a finite value (exact), an infinity, or not-a-number. -/
inductive Dbl where
  | nan
  | negInf
  | posInf
  | fin (v : Int)
  deriving DecidableEq, Repr

namespace Dbl

/-- C `a < b` on doubles. -/
def lt : Dbl → Dbl → Bool
  | nan, _ => false
  | _, nan => false
  | negInf, negInf => false
  | negInf, _ => true
  | _, negInf => false
  | posInf, _ => false
  | fin _, posInf => true
  | fin a, fin b => decide (a < b)

/-- C `a > b` on doubles. -/
def gt (a b : Dbl) : Bool := lt b a

/-- C `a != b` on doubles: `NaN` differs from everything, itself included. -/
def ne : Dbl → Dbl → Bool
  | nan, _ => true
  | _, nan => true
  | a, b => decide (a ≠ b)

/-- C `a + b` on doubles. -/
def add : Dbl → Dbl → Dbl
  | nan, _ => nan
  | _, nan => nan
  | negInf, posInf => nan
  | posInf, negInf => nan
  | negInf, _ => negInf
  | _, negInf => negInf
  | posInf, _ => posInf
  | _, posInf => posInf
  | fin a, fin b => fin (a + b)

/-- C unary minus on doubles. -/
def neg : Dbl → Dbl
  | nan => nan
  | negInf => posInf
  | posInf => negInf
  | fin a => fin (-a)

/-- C `a - b` on doubles. -/
def sub (a b : Dbl) : Dbl := add a (neg b)

/-- The sign of a double that is not `NaN`, as `-1`, `0` or `1`. -/
def sign : Dbl → Int
  | nan => 0
  | negInf => -1
  | posInf => 1
  | fin a => Int.sign a

/-- C `a * b` on doubles. -/
def mul : Dbl → Dbl → Dbl
  | nan, _ => nan
  | _, nan => nan
  | fin a, fin b => fin (a * b)
  | a, b =>
    if sign a * sign b = 0 then nan
    else if sign a * sign b < 0 then negInf else posInf

end Dbl

/-! ## Records and memory -/

/-- The `Order` record (fields as set by `initOrder`). -/
structure Order where
  tid : String
  buyOrSell : Int
  shares : Dbl
  limit : Dbl
  entryTime : Dbl
  eventTime : Dbl
  nextOrder : Option Nat
  prevOrder : Option Nat
  parentLimit : Option Nat
  deriving DecidableEq, Repr

/-- The `Limit` record (fields as set by `initLimit`). -/
structure Limit where
  limitPrice : Dbl
  size : Dbl
  totalVolume : Dbl
  orderCount : Int
  parent : Option Nat
  leftChild : Option Nat
  rightChild : Option Nat
  headOrder : Option Nat
  tailOrder : Option Nat
  deriving DecidableEq, Repr

/-- The `Limit` records in memory, by address. -/
abbrev LimitHeap := Nat → Limit

/-- The `Order` records in memory, by address. -/
abbrev OrderHeap := Nat → Order

/-- Memory: the `Limit` records and the `Order` records. -/
structure Mem where
  limits : LimitHeap
  orders : OrderHeap

/-- Why a run did not return. -/
inductive Fault where
  | outOfFuel
  | nullDeref
  | assertFailed
  deriving DecidableEq, Repr

/-- `initOrder`. -/
def initOrder (_o : Order) : Order :=
  { tid := "NULL", buyOrSell := 0, shares := .fin 0, limit := .fin 0,
    entryTime := .fin 0, eventTime := .fin 0,
    nextOrder := none, prevOrder := none, parentLimit := none }

/-- `initLimit`. -/
def initLimit (_l : Limit) : Limit :=
  { limitPrice := .fin 0, size := .fin 0, totalVolume := .fin 0, orderCount := 0,
    parent := none, leftChild := none, rightChild := none,
    headOrder := none, tailOrder := none }

/-! ## Limit tree: existence check and insertion -/

/-- `createRoot`: `malloc` hands out the address `a`; the record there is
initialised and its price set to `-INFINITY`. -/
def createRoot (h : LimitHeap) (a : Nat) : LimitHeap :=
  let h1 := Function.update h a (initLimit (h a))
  Function.update h1 a { h1 a with limitPrice := .negInf }

/-- The `while` loop of `limitExists`, from `currentLimit = cur`. -/
def limitExistsLoop : Nat → LimitHeap → Nat → Nat → Except Fault Int
  | 0, _, _, _ => .error .outOfFuel
  | fuel + 1, h, cur, limit =>
    if Dbl.ne (h cur).limitPrice (h limit).limitPrice then
      if (h cur).leftChild = none ∧ (h cur).rightChild = none then .ok 0
      else if (h cur).rightChild ≠ none ∧ Dbl.lt (h cur).limitPrice (h limit).limitPrice then
        match (h cur).rightChild with
        | some c => limitExistsLoop fuel h c limit
        | none => .error .nullDeref
      else if (h cur).leftChild ≠ none ∧ Dbl.gt (h cur).limitPrice (h limit).limitPrice then
        match (h cur).leftChild with
        | some c => limitExistsLoop fuel h c limit
        | none => .error .nullDeref
      else .ok (-1)
    else .ok 1

/-- `limitExists`. -/
def limitExists (fuel : Nat) (h : LimitHeap) (root limit : Nat) : Except Fault Int :=
  if (h root).parent = none ∧ (h root).rightChild = none then .ok 0
  else limitExistsLoop fuel h root limit

/-- The `while(1)` loop of `addNewLimit`, from `currentLimit = cur`. -/
def addNewLimitLoop : Nat → LimitHeap → Nat → Nat → Except Fault (Int × LimitHeap)
  | 0, _, _, _ => .error .outOfFuel
  | fuel + 1, h, cur, limit =>
    if Dbl.lt (h cur).limitPrice (h limit).limitPrice then
      match (h cur).rightChild with
      | none =>
        let h1 := Function.update h cur { h cur with rightChild := some limit }
        let h2 := Function.update h1 limit { h1 limit with parent := some cur }
        .ok (1, h2)
      | some c => addNewLimitLoop fuel h c limit
    else if Dbl.gt (h cur).limitPrice (h limit).limitPrice then
      match (h cur).leftChild with
      | none =>
        let h1 := Function.update h cur { h cur with leftChild := some limit }
        let h2 := Function.update h1 limit { h1 limit with parent := some cur }
        .ok (1, h2)
      | some c => addNewLimitLoop fuel h c limit
    else .ok (0, h)

/-- `addNewLimit`. -/
def addNewLimit (fuel : Nat) (h : LimitHeap) (root limit : Nat) :
    Except Fault (Int × LimitHeap) :=
  match limitExists fuel h root limit with
  | .error e => .error e
  | .ok v =>
    if v = 1 then .ok (0, h)
    else
      let h1 := Function.update h limit { h limit with leftChild := none }
      let h2 := Function.update h1 limit { h1 limit with rightChild := none }
      addNewLimitLoop fuel h2 root limit

/-! ## Limit tree: topology helpers and removal -/

/-- `limitIsRoot`. -/
def limitIsRoot (h : LimitHeap) (limit : Nat) : Int :=
  if (h limit).parent = none then 1 else 0

/-- `hasGrandpa`. -/
def hasGrandpa (h : LimitHeap) (limit : Nat) : Int :=
  match (h limit).parent with
  | some p => if (h p).parent ≠ none then 1 else 0
  | none => 0

/-- The `while` loop of `getMinimumLimit`, from `ptr_minimum = m`. -/
def getMinimumLoop : Nat → LimitHeap → Nat → Except Fault Nat
  | 0, _, _ => .error .outOfFuel
  | fuel + 1, h, m =>
    match (h m).leftChild with
    | none => .ok m
    | some c => getMinimumLoop fuel h c

/-- `getMinimumLimit`. -/
def getMinimumLimit (fuel : Nat) (h : LimitHeap) (limit : Nat) : Except Fault Nat :=
  match (if limitIsRoot h limit ≠ 0 then (h limit).rightChild else some limit) with
  | none => .error .nullDeref
  | some m => getMinimumLoop fuel h m

/-- `replaceLimitInParent`; `newLimit` may be `NULL`.  The first `match` is the
test `!limitIsRoot(limit)`, which is `limit->parent != NULL`. -/
def replaceLimitInParent (h : LimitHeap) (limit : Nat) (newLimit : Option Nat) : LimitHeap :=
  let h1 :=
    match (h limit).parent with
    | some p =>
      if (h p).leftChild = some limit ∧ limitIsRoot h p = 0 then
        Function.update h p { h p with leftChild := newLimit }
      else
        Function.update h p { h p with rightChild := newLimit }
    | none => h
  match newLimit with
  | some n => Function.update h1 n { h1 n with parent := (h1 limit).parent }
  | none => h1

/-- `removeLimit`; `fuel` bounds the recursion and the loop of
`getMinimumLimit`. -/
def removeLimit : Nat → LimitHeap → Nat → Except Fault (Int × LimitHeap)
  | 0, _, _ => .error .outOfFuel
  | fuel + 1, h, limit =>
    if hasGrandpa h limit = 0 ∧ limitIsRoot h limit ≠ 0 then .ok (0, h)
    else if (h limit).leftChild ≠ none ∧ (h limit).rightChild ≠ none then
      match (h limit).rightChild with
      | none => .error .nullDeref
      | some rc =>
        match getMinimumLimit fuel h rc with
        | .error e => .error e
        | .ok succ =>
          let parent := (h succ).parent
          let leftChild := (h succ).rightChild
          let rightChild := (h succ).leftChild
          let h1 :=
            if (h limit).leftChild ≠ some succ then
              Function.update h succ { h succ with leftChild := (h limit).leftChild }
            else Function.update h succ { h succ with leftChild := none }
          let h2 :=
            if (h1 limit).rightChild ≠ some succ then
              Function.update h1 succ { h1 succ with rightChild := (h1 limit).rightChild }
            else Function.update h1 succ { h1 succ with rightChild := none }
          let h3 := Function.update h2 limit { h2 limit with leftChild := leftChild }
          let h4 := Function.update h3 limit { h3 limit with rightChild := rightChild }
          let h5 := Function.update h4 succ { h4 succ with parent := (h4 limit).parent }
          match (h5 succ).parent with
          | none => .error .nullDeref
          | some sp =>
            let h6 :=
              if (h5 sp).rightChild = some limit then
                Function.update h5 sp { h5 sp with rightChild := some succ }
              else if (h5 sp).leftChild = some limit then
                Function.update h5 sp { h5 sp with leftChild := some succ }
              else h5
            let h7 := Function.update h6 limit { h6 limit with parent := parent }
            match removeLimit fuel h7 limit with
            | .error e => .error e
            | .ok (_, h8) => .ok (1, h8)
    else if (h limit).leftChild ≠ none ∧ (h limit).rightChild = none then
      .ok (1, replaceLimitInParent h limit (h limit).leftChild)
    else if (h limit).leftChild ≠ none ∧ (h limit).rightChild = none then
      .ok (1, replaceLimitInParent h limit (h limit).rightChild)
    else .ok (1, replaceLimitInParent h limit none)

/-! ## Order list of a Limit -/

/-- `pushOrder`. -/
def pushOrder (m : Mem) (limit newOrder : Nat) : Int × Mem :=
  if Dbl.ne (m.limits limit).limitPrice (m.orders newOrder).limit then (0, m)
  else
    let o1 := Function.update m.orders newOrder
      { m.orders newOrder with parentLimit := some limit }
    let o2 := Function.update o1 newOrder
      { o1 newOrder with nextOrder := (m.limits limit).headOrder }
    let o3 := Function.update o2 newOrder { o2 newOrder with prevOrder := none }
    let m1 : Mem :=
      match (m.limits limit).headOrder with
      | some hd =>
        { limits := m.limits,
          orders := Function.update o3 hd { o3 hd with prevOrder := some newOrder } }
      | none =>
        { limits := Function.update m.limits limit
            { m.limits limit with tailOrder := some newOrder },
          orders := o3 }
    let l2 := Function.update m1.limits limit
      { m1.limits limit with headOrder := some newOrder }
    let l3 := Function.update l2 limit { l2 limit with orderCount := (l2 limit).orderCount + 1 }
    let l4 := Function.update l3 limit
      { l3 limit with size := Dbl.add (l3 limit).size (m1.orders newOrder).shares }
    let v := Dbl.mul (m1.orders newOrder).shares (l4 limit).limitPrice
    let l5 := Function.update l4 limit
      { l4 limit with totalVolume := Dbl.add (l4 limit).totalVolume v }
    (1, { limits := l5, orders := m1.orders })

/-- `popOrder`; the result `none` is `NULL`. -/
def popOrder (m : Mem) (limit : Nat) : Option Nat × Mem :=
  match (m.limits limit).tailOrder with
  | none => (none, m)
  | some popped =>
    match (m.orders popped).prevOrder with
    | some prev =>
      let l1 := Function.update m.limits limit { m.limits limit with tailOrder := some prev }
      let o1 := Function.update m.orders prev { m.orders prev with nextOrder := none }
      let l2 := Function.update l1 limit { l1 limit with orderCount := (l1 limit).orderCount - 1 }
      let l3 := Function.update l2 limit
        { l2 limit with size := Dbl.sub (l2 limit).size (o1 popped).shares }
      let v := Dbl.mul (o1 popped).shares (l3 limit).limitPrice
      let l4 := Function.update l3 limit
        { l3 limit with totalVolume := Dbl.sub (l3 limit).totalVolume v }
      (some popped, { limits := l4, orders := o1 })
    | none =>
      let l1 := Function.update m.limits limit { m.limits limit with headOrder := none }
      let l2 := Function.update l1 limit { l1 limit with tailOrder := none }
      let l3 := Function.update l2 limit { l2 limit with orderCount := 0 }
      let l4 := Function.update l3 limit { l3 limit with size := .fin 0 }
      let l5 := Function.update l4 limit { l4 limit with totalVolume := .fin 0 }
      (some popped, { limits := l5, orders := m.orders })

/-! ## Abstract trees and the shape of the heap -/

/-- A binary tree of `Limit` nodes: each node carries its address and its
(finite) price. -/
inductive Tree where
  | nil
  | node (l : Tree) (a : Nat) (k : Int) (r : Tree)
  deriving DecidableEq, Repr

namespace Tree

/-- The prices of a tree, left to right (in-order). -/
def keys : Tree → List Int
  | nil => []
  | node l _ k r => keys l ++ k :: keys r

/-- The addresses of a tree, left to right (in-order). -/
def addrs : Tree → List Nat
  | nil => []
  | node l a _ r => addrs l ++ a :: addrs r

/-- Number of levels of a tree (`0` for the empty tree). -/
def levels : Tree → Nat
  | nil => 0
  | node l _ _ r => max (levels l) (levels r) + 1

/-- Strict BST ordering: every left-subtree price < node price < every
right-subtree price, at every node. -/
def BST : Tree → Prop
  | nil => True
  | node l _ k r => (∀ x ∈ keys l, x < k) ∧ (∀ x ∈ keys r, k < x) ∧ BST l ∧ BST r

/-- What the loop of `limitExists` computes, read off the tree. -/
def probe (x : Dbl) : Tree → Int
  | nil => 0
  | node l _ k r =>
    if Dbl.ne (.fin k) x then
      if l = nil ∧ r = nil then 0
      else if r ≠ nil ∧ Dbl.lt (.fin k) x then probe x r
      else if l ≠ nil ∧ Dbl.gt (.fin k) x then probe x l
      else -1
    else 1

/-- Where the loop of `addNewLimit` hangs a new node `a` with price `k`. -/
def insert (a : Nat) (k : Int) : Tree → Tree
  | nil => node nil a k nil
  | node l b kb r =>
    if kb < k then node l b kb (insert a k r)
    else if k < kb then node (insert a k l) b kb r
    else node l b kb r

end Tree

/-- The heap `h` holds the tree `t` at pointer `p`, below parent `par`: child
links, parent links and prices are those of `t`. -/
def Shape (h : LimitHeap) : Option Nat → Option Nat → Tree → Prop
  | _, p, .nil => p = none
  | par, p, .node l a k r =>
    p = some a ∧ (h a).limitPrice = .fin k ∧ (h a).parent = par ∧
      Shape h (some a) (h a).leftChild l ∧ Shape h (some a) (h a).rightChild r

/-- A valid sentinel-rooted BST: the sentinel at `root` has price `-INFINITY`,
no parent and no left child, and its right child holds the BST `t`. -/
def ValidTree (h : LimitHeap) (root : Nat) (t : Tree) : Prop :=
  (h root).limitPrice = .negInf ∧ (h root).parent = none ∧ (h root).leftChild = none ∧
    Shape h (some root) (h root).rightChild t ∧ t.BST

/-- In-order traversal of the heap by child links, from pointer `p`. -/
def inorder : Nat → LimitHeap → Option Nat → Except Fault (List Dbl)
  | 0, _, _ => .error .outOfFuel
  | _ + 1, _, none => .ok []
  | fuel + 1, h, some a =>
    match inorder fuel h (h a).leftChild, inorder fuel h (h a).rightChild with
    | .ok ls, .ok rs => .ok (ls ++ (h a).limitPrice :: rs)
    | .error e, _ => .error e
    | _, .error e => .error e

/-- Result of `limitExists` on a valid sentinel-rooted tree, read off the tree. -/
def rootProbe (x : Dbl) (t : Tree) : Int :=
  if t = .nil then 0
  else if x = .negInf then 1
  else if x = .nan then -1
  else t.probe x

/-- Calls `addNewLimit(root, a)` for each `a` of the list in turn and collects
the return values. -/
def addAll (fuel : Nat) (root : Nat) : LimitHeap → List Nat → Except Fault (List Int × LimitHeap)
  | h, [] => .ok ([], h)
  | h, a :: as =>
    match addNewLimit fuel h root a with
    | .error e => .error e
    | .ok (v, h1) =>
      match addAll fuel root h1 as with
      | .error e => .error e
      | .ok (vs, h2) => .ok (v :: vs, h2)

/-- Deciding `Shape`. -/
def Shape.dec (h : LimitHeap) : (t : Tree) → (par p : Option Nat) → Decidable (Shape h par p t)
  | .nil, _, p => (inferInstance : Decidable (p = none))
  | .node l a k r, par, p =>
    have := Shape.dec h l (some a) (h a).leftChild
    have := Shape.dec h r (some a) (h a).rightChild
    (inferInstance : Decidable (p = some a ∧ (h a).limitPrice = .fin k ∧ (h a).parent = par ∧
      Shape h (some a) (h a).leftChild l ∧ Shape h (some a) (h a).rightChild r))

instance (h : LimitHeap) (t : Tree) (par p : Option Nat) : Decidable (Shape h par p t) :=
  Shape.dec h t par p

/-- Deciding `Tree.BST`. -/
def Tree.BST.dec : (t : Tree) → Decidable t.BST
  | .nil => (inferInstance : Decidable True)
  | .node l _ k r =>
    have := Tree.BST.dec l
    have := Tree.BST.dec r
    (inferInstance : Decidable ((∀ x ∈ l.keys, x < k) ∧ (∀ x ∈ r.keys, k < x) ∧ l.BST ∧ r.BST))

instance (t : Tree) : Decidable t.BST := Tree.BST.dec t

instance (h : LimitHeap) (root : Nat) (t : Tree) : Decidable (ValidTree h root t) := by
  unfold ValidTree; infer_instance

deriving instance DecidableEq for Except

/-- A record with every field zero or `NULL`. -/
def blankLimit : Limit :=
  { limitPrice := .fin 0, size := .fin 0, totalVolume := .fin 0, orderCount := 0,
    parent := none, leftChild := none, rightChild := none, headOrder := none, tailOrder := none }

/-- A memory in which the Limit at address `a` has price `a` and no links. -/
def pricedHeap : LimitHeap := fun a => { blankLimit with limitPrice := .fin a }

/-- The heap after `createRoot` at address `0` and the insertions `ls`. -/
def builtHeap (ls : List Nat) : LimitHeap :=
  match addAll (ls.length + 1) 0 (createRoot pricedHeap 0) ls with
  | .ok (_, h) => h
  | .error _ => pricedHeap

/-- The tree of the insertions 10, 5, 15, 3, 7. -/
def test5Tree : Tree :=
  .node (.node (.node .nil 3 3 .nil) 5 5 (.node .nil 7 7 .nil)) 10 10 (.node .nil 15 15 .nil)

/-! ## Order lists: definitions -/

/-- The orders reached from pointer `p` by `nextOrder`, with `prevOrder`
pointing back (`prev` is what the first one points back to). -/
def OrderList (o : OrderHeap) : Option Nat → Option Nat → List Nat → Prop
  | _, p, [] => p = none
  | prev, p, a :: rest =>
    p = some a ∧ (o a).prevOrder = prev ∧ OrderList o (some a) (o a).nextOrder rest

/-- The Limit at `l` holds the well-formed doubly linked list `rs`, head
first: `headOrder` starts it, `tailOrder` is its last entry, no entry occurs
twice. -/
def WellFormed (m : Mem) (l : Nat) (rs : List Nat) : Prop :=
  OrderList m.orders none (m.limits l).headOrder rs ∧
    (m.limits l).tailOrder = rs.getLast? ∧ rs.Nodup

/-- Sum of a list of doubles, from zero. -/
def Dbl.sum : List Dbl → Dbl
  | [] => .fin 0
  | x :: xs => Dbl.add x (Dbl.sum xs)

/-- One call on a Limit: `pushOrder(limit, o)` or `popOrder(limit)`. -/
inductive OrderOp where
  | push (o : Nat)
  | pop
  deriving DecidableEq, Repr

/-- The memory after one call. -/
def applyOp (l : Nat) (m : Mem) : OrderOp → Mem
  | .push o => (pushOrder m l o).2
  | .pop => (popOrder m l).2

/-- The memory after a sequence of calls. -/
def runOps (l : Nat) (m : Mem) (ops : List OrderOp) : Mem :=
  ops.foldl (applyOp l) m

/-- The orders passed to `pushOrder` in a sequence of calls, in call order. -/
def pushed : List OrderOp → List Nat
  | [] => []
  | .push o :: rest => o :: pushed rest
  | .pop :: rest => pushed rest

/-- `pushOrder(limit, o)` for each `o` of the list in turn. -/
def pushAll (l : Nat) (m : Mem) (os : List Nat) : Mem :=
  os.foldl (fun m o => (pushOrder m l o).2) m

/-- `popOrder(limit)` called `n` times; the returned pointers in call order. -/
def popN (l : Nat) : Nat → Mem → List (Option Nat) × Mem
  | 0, m => ([], m)
  | n + 1, m =>
    let r := popOrder m l
    let rest := popN l n r.2
    (r.1 :: rest.1, rest.2)

/-! ## Sequences of `pushOrder` and `popOrder` -/

/-- The value of a finite double (`0` for the special values). -/
def Dbl.toInt : Dbl → Int
  | .fin v => v
  | _ => 0

/-- Total of the shares of the orders `rs`, as an integer. -/
def sharesTotal (m : Mem) (rs : List Nat) : Int :=
  (rs.map (fun a => (m.orders a).shares.toInt)).sum

/-- The aggregates of the Limit at `l` are those of the list `rs` at price `p`. -/
def AggFin (m : Mem) (l : Nat) (p : Int) (rs : List Nat) : Prop :=
  (m.limits l).size = .fin (sharesTotal m rs) ∧
    (m.limits l).orderCount = rs.length ∧
    (m.limits l).totalVolume = .fin (sharesTotal m rs * p)

/-- What holds of the Limit at `l` along a run whose pushed orders are `P`:
the list is well-formed, later pushes sit nearer the head, and (under the
guard `G`, for a finite price and finite shares) the aggregates are right. -/
def Inv (G : Prop) (P : List Nat) (l : Nat) (p : Int) (m : Mem) (rs : List Nat) : Prop :=
  WellFormed m l rs ∧ rs.Pairwise (fun a b => P.indexOf b < P.indexOf a) ∧
    (G → (m.limits l).limitPrice = .fin p → (∀ a ∈ P, ∃ s, (m.orders a).shares = .fin s) →
      AggFin m l p rs)

/-- An `Order` record with every field zero or `NULL`. -/
def blankOrder : Order :=
  { tid := "NULL", buyOrSell := 0, shares := .fin 0, limit := .fin 0, entryTime := .fin 0,
    eventTime := .fin 0, nextOrder := none, prevOrder := none, parentLimit := none }

/-- A memory with empty Limits of price 5; the order at address `a` has `a`
shares, and limit 5 if `a < 10`, limit 6 otherwise. -/
def bookMem : Mem :=
  { limits := fun _ => { blankLimit with limitPrice := .fin 5 },
    orders := fun a =>
      { blankOrder with shares := .fin a, limit := if a < 10 then .fin 5 else .fin 6 } }

/-! ## Removal of a node that has no right child -/

/-- The tree without the node `a`, whose left subtree takes its place (used
for a node without right child). -/
def Tree.cut (a : Nat) : Tree → Tree
  | .nil => .nil
  | .node l b k r => if b = a then l else .node (cut a l) b k (cut a r)

/-! ## Limit tree: maximum, height and balance factor -/

/-- The `while` loop of `getMaximumLimit`, from `ptr_maximum = m`. -/
def getMaximumLoop : Nat → LimitHeap → Nat → Except Fault Nat
  | 0, _, _ => .error .outOfFuel
  | fuel + 1, h, m =>
    match (h m).rightChild with
    | none => .ok m
    | some c => getMaximumLoop fuel h c

/-- `getMaximumLimit`. -/
def getMaximumLimit (fuel : Nat) (h : LimitHeap) (limit : Nat) : Except Fault Nat :=
  getMaximumLoop fuel h limit

/-- Modelled from the spec: the `Queue` record with `initQueue`, `pushToQueue`
and `popFromQueue` (declared in `hftlob.h`, used by `getHeight`, not in the
source file).  A first-in-first-out queue of Limit pointers: enqueue appends
at the tail and increments the size, dequeue removes and returns the head and
decrements the size, dequeue on an empty queue yields `NULL`. -/
abbrev Queue := List Nat

/-- Modelled from the spec: `q->size`. -/
def Queue.size (q : Queue) : Nat := q.length

/-- Modelled from the spec: `pushToQueue`. -/
def pushToQueue (q : Queue) (limit : Nat) : Queue := q ++ [limit]

/-- Modelled from the spec: `popFromQueue`; the result `none` is `NULL`. -/
def popFromQueue : Queue → Option Nat × Queue
  | [] => (none, [])
  | a :: rest => (some a, rest)

/-- The inner loop `while(qsize > 0)` of `getHeight`. -/
def getHeightLevel : Nat → LimitHeap → Queue → Except Fault Queue
  | 0, _, q => .ok q
  | qsize + 1, h, q =>
    match popFromQueue q with
    | (none, _) => .error .nullDeref
    | (some cur, q1) =>
      let q2 := match (h cur).leftChild with
        | some c => pushToQueue q1 c
        | none => q1
      let q3 := match (h cur).rightChild with
        | some c => pushToQueue q2 c
        | none => q2
      getHeightLevel qsize h q3

/-- The outer loop `while(1)` of `getHeight`. -/
def getHeightLoop : Nat → LimitHeap → Queue → Int → Except Fault Int
  | 0, _, _, _ => .error .outOfFuel
  | fuel + 1, h, q, height =>
    if q.size = 0 then .ok height
    else
      match getHeightLevel q.size h q with
      | .error e => .error e
      | .ok q1 => getHeightLoop fuel h q1 (height + 1)

/-- `getHeight`; the argument `none` is `NULL`. -/
def getHeight (fuel : Nat) (h : LimitHeap) (limit : Option Nat) : Except Fault Int :=
  match limit with
  | none => .ok (-1)
  | some a => getHeightLoop fuel h (pushToQueue [] a) (-1)

/-- `getBalanceFactor`. -/
def getBalanceFactor (fuel : Nat) (h : LimitHeap) (limit : Nat) : Except Fault Int :=
  let right : Except Fault Int :=
    if (h limit).rightChild ≠ none then getHeight fuel h (h limit).rightChild else .ok (-1)
  match right with
  | .error e => .error e
  | .ok rightHeight =>
    let left : Except Fault Int :=
      if (h limit).leftChild ≠ none then getHeight fuel h (h limit).leftChild else .ok (-1)
    match left with
    | .error e => .error e
    | .ok leftHeight => .ok (rightHeight - leftHeight)

/-! ## Limit tree: rotations and rebalancing -/

/-- `rotateLeftLeft`. -/
def rotateLeftLeft (h : LimitHeap) (limit : Nat) : Except Fault LimitHeap :=
  let child := (h limit).leftChild
  match (h limit).parent with
  | none => .error .nullDeref
  | some p =>
    let h1 :=
      if limitIsRoot h p = 1 ∨ Dbl.gt (h limit).limitPrice (h p).limitPrice then
        Function.update h p { h p with rightChild := child }
      else Function.update h p { h p with leftChild := child }
    match child with
    | none => .error .nullDeref
    | some c =>
      let h2 := Function.update h1 c { h1 c with parent := (h1 limit).parent }
      let h3 := Function.update h2 limit { h2 limit with parent := some c }
      let h4 := Function.update h3 c { h3 c with rightChild := some limit }
      let h5 := Function.update h4 limit { h4 limit with leftChild := (h4 c).rightChild }
      .ok h5

/-- `rotateLeftRight`. -/
def rotateLeftRight (h : LimitHeap) (limit : Nat) : Except Fault LimitHeap :=
  match (h limit).leftChild with
  | none => .error .nullDeref
  | some c =>
    match (h c).rightChild with
    | none => .error .nullDeref
    | some g =>
      let h1 := Function.update h c { h c with parent := some g }
      let h2 := Function.update h1 g { h1 g with parent := some limit }
      let h3 := Function.update h2 c { h2 c with rightChild := (h2 g).leftChild }
      let h4 := Function.update h3 limit { h3 limit with leftChild := some g }
      let h5 := Function.update h4 g { h4 g with leftChild := some c }
      rotateLeftLeft h5 limit

/-- `rotateRightRight`. -/
def rotateRightRight (h : LimitHeap) (limit : Nat) : Except Fault LimitHeap :=
  let child := (h limit).rightChild
  match (h limit).parent with
  | none => .error .nullDeref
  | some p =>
    let h1 :=
      if limitIsRoot h p = 1 ∨ Dbl.gt (h limit).limitPrice (h p).limitPrice then
        Function.update h p { h p with rightChild := child }
      else Function.update h p { h p with leftChild := child }
    match child with
    | none => .error .nullDeref
    | some c =>
      let h2 := Function.update h1 c { h1 c with parent := (h1 limit).parent }
      let h3 := Function.update h2 limit { h2 limit with parent := some c }
      let h4 := Function.update h3 c { h3 c with leftChild := some limit }
      let h5 := Function.update h4 limit { h4 limit with rightChild := (h4 c).leftChild }
      .ok h5

/-- `rotateRightLeft`. -/
def rotateRightLeft (h : LimitHeap) (limit : Nat) : Except Fault LimitHeap :=
  match (h limit).rightChild with
  | none => .error .nullDeref
  | some c =>
    match (h c).leftChild with
    | none => .error .nullDeref
    | some g =>
      let h1 := Function.update h c { h c with parent := some g }
      let h2 := Function.update h1 g { h1 g with parent := some limit }
      let h3 := Function.update h2 c { h2 c with leftChild := (h2 g).rightChild }
      let h4 := Function.update h3 limit { h3 limit with rightChild := some g }
      let h5 := Function.update h4 g { h4 g with rightChild := some c }
      rotateRightRight h5 limit

/-- `balanceBranch`; a failed `assert` is `Fault.assertFailed`. -/
def balanceBranch (fuel : Nat) (h : LimitHeap) (limit : Nat) : Except Fault LimitHeap :=
  match getHeight fuel h (some limit) with
  | .error e => .error e
  | .ok height =>
    if ¬ height < 2 then .error .assertFailed
    else
      match getBalanceFactor fuel h limit with
      | .error e => .error e
      | .ok balanceFactor =>
        if balanceFactor > 1 then
          match (h limit).rightChild with
          | none => .error .nullDeref
          | some rc =>
            match getBalanceFactor fuel h rc with
            | .error e => .error e
            | .ok bf =>
              if bf < 0 then rotateRightLeft h limit
              else if bf > 0 then rotateRightRight h limit
              else .ok h
        else if balanceFactor < -1 then
          match (h limit).leftChild with
          | none => .error .nullDeref
          | some lc =>
            match getBalanceFactor fuel h lc with
            | .error e => .error e
            | .ok bf =>
              if bf < 0 then rotateLeftLeft h limit
              else if bf > 0 then rotateLeftRight h limit
              else .ok h
        else .ok h

/-! ## Order list: removal anywhere, and the copy of a Limit -/

/-- `removeOrder`. -/
def removeOrder (m : Mem) (order : Nat) : Except Fault (Int × Mem) :=
  match (m.orders order).parentLimit with
  | none => .error .nullDeref
  | some pl =>
    if (m.limits pl).headOrder = some order ∧ (m.limits pl).tailOrder = some order then
      let l1 := Function.update m.limits pl { m.limits pl with headOrder := none }
      let l2 := Function.update l1 pl { l1 pl with tailOrder := none }
      .ok (1, { limits := l2, orders := m.orders })
    else if (m.orders order).prevOrder ≠ none ∧ (m.orders order).nextOrder ≠ none then
      match (m.orders order).prevOrder with
      | none => .error .nullDeref
      | some pv =>
        let o1 := Function.update m.orders pv
          { m.orders pv with nextOrder := (m.orders order).nextOrder }
        match (o1 order).nextOrder with
        | none => .error .nullDeref
        | some nx =>
          let o2 := Function.update o1 nx { o1 nx with prevOrder := (o1 order).prevOrder }
          .ok (1, { limits := m.limits, orders := o2 })
    else if (m.orders order).nextOrder = none ∧ (m.limits pl).tailOrder = some order then
      match (m.orders order).prevOrder with
      | none => .error .nullDeref
      | some pv =>
        let o1 := Function.update m.orders pv { m.orders pv with nextOrder := none }
        match (o1 order).parentLimit with
        | none => .error .nullDeref
        | some pl1 =>
          let l1 := Function.update m.limits pl1
            { m.limits pl1 with tailOrder := (o1 order).prevOrder }
          .ok (1, { limits := l1, orders := o1 })
    else if (m.orders order).prevOrder = none ∧ (m.limits pl).headOrder = some order then
      match (m.orders order).nextOrder with
      | none => .error .nullDeref
      | some nx =>
        let o1 := Function.update m.orders nx { m.orders nx with prevOrder := none }
        match (o1 order).parentLimit with
        | none => .error .nullDeref
        | some pl1 =>
          let l1 := Function.update m.limits pl1
            { m.limits pl1 with headOrder := (o1 order).nextOrder }
          .ok (1, { limits := l1, orders := o1 })
    else .ok (-1, m)

/-- The `while` loop of `copyLimit`, from `ptr_order = p`. -/
def copyLimitLoop : Nat → OrderHeap → Option Nat → Nat → Except Fault OrderHeap
  | 0, _, _, _ => .error .outOfFuel
  | _ + 1, o, none, _ => .ok o
  | fuel + 1, o, some a, tar =>
    let o1 := Function.update o a { o a with parentLimit := some tar }
    copyLimitLoop fuel o1 (o1 a).nextOrder tar

/-- `copyLimit`. -/
def copyLimit (fuel : Nat) (m : Mem) (src tar : Nat) : Except Fault Mem :=
  let l1 := Function.update m.limits tar { m.limits tar with limitPrice := (m.limits src).limitPrice }
  let l2 := Function.update l1 tar { l1 tar with size := (l1 src).size }
  let l3 := Function.update l2 tar { l2 tar with totalVolume := (l2 src).totalVolume }
  let l4 := Function.update l3 tar { l3 tar with orderCount := (l3 src).orderCount }
  let l5 := Function.update l4 tar { l4 tar with headOrder := (l4 src).headOrder }
  let l6 := Function.update l5 tar { l5 tar with tailOrder := (l5 src).tailOrder }
  match copyLimitLoop fuel m.orders (l6 tar).headOrder tar with
  | .error e => .error e
  | .ok o1 => .ok { limits := l6, orders := o1 }

/-! ## Heights of abstract trees, and fixtures -/

/-- The heap `h` holds the tree `t` at pointer `p`, by child links only. -/
def Links (h : LimitHeap) : Option Nat → Tree → Prop
  | p, .nil => p = none
  | p, .node l a _ r => p = some a ∧ Links h (h a).leftChild l ∧ Links h (h a).rightChild r

/-- The recursive height in the words of the spec: `-1` for an absent node,
otherwise one more than the greater of the children's heights. -/
def recHeight : Tree → Int
  | .nil => -1
  | .node l _ _ r => 1 + max (recHeight l) (recHeight r)

/-- The left subtree (empty for the empty tree). -/
def Tree.left : Tree → Tree
  | .nil => .nil
  | .node l _ _ _ => l

/-- The right subtree (empty for the empty tree). -/
def Tree.right : Tree → Tree
  | .nil => .nil
  | .node _ _ _ r => r

/-- The non-empty children of a tree's top node. -/
def Tree.kids : Tree → List Tree
  | .nil => []
  | .node l _ _ r => (if l = .nil then [] else [l]) ++ (if r = .nil then [] else [r])

/-- The non-`NULL` child pointers of the Limit at `a`, left first. -/
def childPtrs (h : LimitHeap) (a : Nat) : List Nat :=
  (h a).leftChild.toList ++ (h a).rightChild.toList

/-- The greatest number of levels among the trees of a list. -/
def forestLevels : List Tree → Nat
  | [] => 0
  | t :: ts => max t.levels (forestLevels ts)

/-- The queue `q` holds the top nodes of the non-empty trees `ts`, in order. -/
def Forest (h : LimitHeap) : List Nat → List Tree → Prop
  | [], [] => True
  | a :: q, t :: ts => t ≠ .nil ∧ Links h (some a) t ∧ Forest h q ts
  | _, _ => False

/-- The memory after `removeLimit` on the node `a` of `builtHeap ls`. -/
def removedHeap (ls : List Nat) (a : Nat) : LimitHeap :=
  match removeLimit (ls.length + 1) (builtHeap ls) a with
  | .ok (_, h) => h
  | .error _ => builtHeap ls

/-- The left chain of the insertions 30, 20, 10. -/
def chainTree : Tree :=
  .node (.node (.node .nil 10 10 .nil) 20 20 .nil) 30 30 .nil

/-- The memory after `rotateLeftLeft` on the node `a` of `builtHeap ls`. -/
def rotatedHeap (ls : List Nat) (a : Nat) : LimitHeap :=
  match rotateLeftLeft (builtHeap ls) a with
  | .ok h => h
  | .error _ => builtHeap ls

/-- Deciding `Links`. -/
def Links.dec (h : LimitHeap) : (t : Tree) → (p : Option Nat) → Decidable (Links h p t)
  | .nil, p => (inferInstance : Decidable (p = none))
  | .node l a _ r, p =>
    have := Links.dec h l (h a).leftChild
    have := Links.dec h r (h a).rightChild
    (inferInstance : Decidable (p = some a ∧ Links h (h a).leftChild l ∧
      Links h (h a).rightChild r))

instance (h : LimitHeap) (t : Tree) (p : Option Nat) : Decidable (Links h p t) :=
  Links.dec h t p

/-! ## Order lists read backwards, and by `nextOrder` alone -/

/-- The orders reached from pointer `p` by `prevOrder`, with `nextOrder`
pointing back (`next` is what the first one points back to). -/
def OrderListRev (o : OrderHeap) : Option Nat → Option Nat → List Nat → Prop
  | _, p, [] => p = none
  | next, p, a :: rest =>
    p = some a ∧ (o a).nextOrder = next ∧ OrderListRev o (some a) (o a).prevOrder rest

/-- The orders reached from pointer `p` by `nextOrder`, up to `NULL`. -/
def NextChain (o : OrderHeap) : Option Nat → List Nat → Prop
  | p, [] => p = none
  | p, a :: rest => p = some a ∧ NextChain o (o a).nextOrder rest

/-- Deciding `OrderList`. -/
def OrderList.dec (o : OrderHeap) :
    (rs : List Nat) → (prev p : Option Nat) → Decidable (OrderList o prev p rs)
  | [], _, p => (inferInstance : Decidable (p = none))
  | a :: rest, prev, p =>
    have := OrderList.dec o rest (some a) (o a).nextOrder
    (inferInstance : Decidable (p = some a ∧ (o a).prevOrder = prev ∧
      OrderList o (some a) (o a).nextOrder rest))

instance (o : OrderHeap) (rs : List Nat) (prev p : Option Nat) :
    Decidable (OrderList o prev p rs) :=
  OrderList.dec o rs prev p

instance (m : Mem) (l : Nat) (rs : List Nat) : Decidable (WellFormed m l rs) := by
  unfold WellFormed; infer_instance

/-- Deciding `NextChain`. -/
def NextChain.dec (o : OrderHeap) : (rs : List Nat) → (p : Option Nat) → Decidable (NextChain o p rs)
  | [], p => (inferInstance : Decidable (p = none))
  | a :: rest, p =>
    have := NextChain.dec o rest (o a).nextOrder
    (inferInstance : Decidable (p = some a ∧ NextChain o (o a).nextOrder rest))

instance (o : OrderHeap) (rs : List Nat) (p : Option Nat) : Decidable (NextChain o p rs) :=
  NextChain.dec o rs p

/-! # Theorems -/

/-! ## Shape lemmas -/

theorem Shape.ptr_none_iff {h : LimitHeap} {par p : Option Nat} {t : Tree}
    (hs : Shape h par p t) : p = none ↔ t = .nil := by
  cases t with
  | nil => simpa [Shape] using hs
  | node l a k r =>
    obtain ⟨hp, -⟩ := hs
    simp [hp]

theorem Shape.frame {h h' : LimitHeap} {t : Tree} :
    ∀ {par p : Option Nat}, Shape h par p t → (∀ a ∈ t.addrs, h' a = h a) → Shape h' par p t := by
  induction t with
  | nil => intro par p hs _; exact hs
  | node l a k r ihl ihr =>
    intro par p hs hfr
    obtain ⟨hp, hk, hpar, hl, hr⟩ := hs
    have ha : h' a = h a := hfr a (by simp [Tree.addrs])
    refine ⟨hp, by rw [ha]; exact hk, by rw [ha]; exact hpar, ?_, ?_⟩
    · rw [ha]
      exact ihl hl (fun b hb => hfr b (by simp [Tree.addrs, hb]))
    · rw [ha]
      exact ihr hr (fun b hb => hfr b (by simp [Tree.addrs, hb]))

theorem Shape.price_of_mem {h : LimitHeap} {t : Tree} :
    ∀ {par p : Option Nat}, Shape h par p t → ∀ a ∈ t.addrs,
      ∃ k ∈ t.keys, (h a).limitPrice = .fin k := by
  induction t with
  | nil => intro par p _ a ha; simp [Tree.addrs] at ha
  | node l b k r ihl ihr =>
    intro par p hs a ha
    obtain ⟨-, hk, -, hl, hr⟩ := hs
    simp only [Tree.addrs, List.mem_append, List.mem_cons] at ha
    rcases ha with ha | rfl | ha
    · obtain ⟨x, hx, hpx⟩ := ihl hl a ha
      exact ⟨x, by simp [Tree.keys, hx], hpx⟩
    · exact ⟨k, by simp [Tree.keys], hk⟩
    · obtain ⟨x, hx, hpx⟩ := ihr hr a ha
      exact ⟨x, by simp [Tree.keys, hx], hpx⟩

theorem Shape.key_of_mem {h : LimitHeap} {t : Tree} :
    ∀ {par p : Option Nat}, Shape h par p t → ∀ k ∈ t.keys,
      ∃ a ∈ t.addrs, (h a).limitPrice = .fin k := by
  induction t with
  | nil => intro par p _ a ha; simp [Tree.keys] at ha
  | node l b k r ihl ihr =>
    intro par p hs x hx
    obtain ⟨-, hk, -, hl, hr⟩ := hs
    simp only [Tree.keys, List.mem_append, List.mem_cons] at hx
    rcases hx with hx | rfl | hx
    · obtain ⟨a, ha, hpa⟩ := ihl hl x hx
      exact ⟨a, by simp [Tree.addrs, ha], hpa⟩
    · exact ⟨b, by simp [Tree.addrs], hk⟩
    · obtain ⟨a, ha, hpa⟩ := ihr hr x hx
      exact ⟨a, by simp [Tree.addrs, ha], hpa⟩

theorem inorder_of_shape {h : LimitHeap} {t : Tree} :
    ∀ {par p : Option Nat}, Shape h par p t → ∀ fuel, t.levels < fuel →
      inorder fuel h p = .ok (t.keys.map Dbl.fin) := by
  induction t with
  | nil =>
    intro par p hs fuel hf
    have hp : p = none := hs
    subst hp
    cases fuel with
    | zero => simp [Tree.levels] at hf
    | succ n => simp [inorder, Tree.keys]
  | node l a k r ihl ihr =>
    intro par p hs fuel hf
    obtain ⟨hp, hk, -, hl, hr⟩ := hs
    subst hp
    cases fuel with
    | zero => simp at hf
    | succ n =>
      simp only [Tree.levels] at hf
      have h1 := ihl hl n (by omega)
      have h2 := ihr hr n (by omega)
      simp [inorder, h1, h2, hk, Tree.keys]

/-! ## The existence check refines `Tree.probe` -/

theorem limitExistsLoop_eq_probe {h : LimitHeap} (limit : Nat) {t : Tree} :
    ∀ {par : Option Nat} {a : Nat}, Shape h par (some a) t → ∀ fuel, t.levels ≤ fuel →
      limitExistsLoop fuel h a limit = .ok (t.probe (h limit).limitPrice) := by
  induction t with
  | nil => intro par a hs; simp [Shape] at hs
  | node l b k r ihl ihr =>
    intro par a hs fuel hf
    obtain ⟨hp, hk, -, hl, hr⟩ := hs
    obtain rfl : a = b := by simpa using hp
    cases fuel with
    | zero => simp [Tree.levels] at hf
    | succ n =>
      simp only [Tree.levels] at hf
      have hln := hl.ptr_none_iff
      have hrn := hr.ptr_none_iff
      rw [limitExistsLoop, Tree.probe, hk]
      by_cases hne : Dbl.ne (.fin k) (h limit).limitPrice = true
      · simp only [ne_eq, hne, if_true, hln, hrn]
        by_cases hleaf : l = .nil ∧ r = .nil
        · simp [hleaf]
        · rw [if_neg hleaf, if_neg hleaf]
          by_cases hgo : ¬ r = .nil ∧ Dbl.lt (.fin k) (h limit).limitPrice = true
          · rw [if_pos hgo, if_pos hgo]
            cases hrc : (h a).rightChild with
            | none => exact absurd (hrn.mp hrc) hgo.1
            | some c =>
              rw [hrc] at hr
              exact ihr hr n (by omega)
          · rw [if_neg hgo, if_neg hgo]
            by_cases hgl : ¬ l = .nil ∧ Dbl.gt (.fin k) (h limit).limitPrice = true
            · rw [if_pos hgl, if_pos hgl]
              cases hlc : (h a).leftChild with
              | none => exact absurd (hln.mp hlc) hgl.1
              | some c =>
                rw [hlc] at hl
                exact ihl hl n (by omega)
            · rw [if_neg hgl, if_neg hgl]
      · simp [hne]

/-! ## Facts about comparisons of doubles -/

@[simp] theorem Dbl.ne_fin_fin (a b : Int) : Dbl.ne (.fin a) (.fin b) = decide (a ≠ b) := by
  simp [Dbl.ne]

@[simp] theorem Dbl.lt_fin_fin (a b : Int) : Dbl.lt (.fin a) (.fin b) = decide (a < b) := rfl

@[simp] theorem Dbl.gt_fin_fin (a b : Int) : Dbl.gt (.fin a) (.fin b) = decide (b < a) := rfl

theorem Dbl.ne_fin_eq_false {k : Int} {x : Dbl} : Dbl.ne (.fin k) x = false ↔ x = .fin k := by
  cases x with
  | fin v => simp only [Dbl.ne_fin_fin, Dbl.fin.injEq]; constructor <;> intro hq <;> simp_all
  | _ => simp [Dbl.ne]

theorem Dbl.ne_negInf_eq_false {x : Dbl} : Dbl.ne .negInf x = false ↔ x = .negInf := by
  cases x <;> simp [Dbl.ne]

theorem Dbl.lt_negInf {x : Dbl} : Dbl.lt .negInf x = true ↔ x ≠ .nan ∧ x ≠ .negInf := by
  cases x <;> simp [Dbl.lt]

/-! ## Facts about `Tree.probe` -/

theorem Tree.keys_eq_nil {t : Tree} : t.keys = [] ↔ t = .nil := by
  cases t <;> simp [Tree.keys]

theorem Tree.probe_range (x : Dbl) (t : Tree) :
    t.probe x = 1 ∨ t.probe x = 0 ∨ t.probe x = -1 := by
  induction t with
  | nil => simp [Tree.probe]
  | node l a k r ihl ihr =>
    simp only [Tree.probe]
    split_ifs <;> simp [ihl, ihr]

theorem Tree.probe_eq_one_iff {t : Tree} (hb : t.BST) (x : Dbl) :
    t.probe x = 1 ↔ ∃ k ∈ t.keys, x = .fin k := by
  induction t with
  | nil => simp [Tree.probe, Tree.keys]
  | node l a k r ihl ihr =>
    obtain ⟨hlt, hgt, hbl, hbr⟩ := hb
    have il := ihl hbl
    have ir := ihr hbr
    simp only [Tree.probe, Tree.keys, List.mem_append, List.mem_cons]
    by_cases hne : Dbl.ne (.fin k) x = true
    · have hxk : x ≠ .fin k := by
        intro hx
        rw [hx] at hne
        simp at hne
      rw [if_pos hne]
      by_cases hleaf : l = .nil ∧ r = .nil
      · rw [if_pos hleaf]
        obtain ⟨rfl, rfl⟩ := hleaf
        simp [Tree.keys, hxk]
      · rw [if_neg hleaf]
        by_cases hgo : r ≠ .nil ∧ Dbl.lt (.fin k) x = true
        · rw [if_pos hgo, ir]
          constructor
          · rintro ⟨y, hy, rfl⟩
            exact ⟨y, Or.inr (Or.inr hy), rfl⟩
          · rintro ⟨y, hy | rfl | hy, rfl⟩
            · have := hlt y hy
              have h2 := hgo.2
              simp at h2
              omega
            · exact absurd rfl hxk
            · exact ⟨y, hy, rfl⟩
        · rw [if_neg hgo]
          by_cases hgl : l ≠ .nil ∧ Dbl.gt (.fin k) x = true
          · rw [if_pos hgl, il]
            constructor
            · rintro ⟨y, hy, rfl⟩
              exact ⟨y, Or.inl hy, rfl⟩
            · rintro ⟨y, hy | rfl | hy, rfl⟩
              · exact ⟨y, hy, rfl⟩
              · exact absurd rfl hxk
              · have := hgt y hy
                have h2 := hgl.2
                simp at h2
                omega
          · rw [if_neg hgl]
            constructor
            · intro h; simp at h
            · rintro ⟨y, hy | rfl | hy, rfl⟩
              · exfalso
                apply hgl
                refine ⟨?_, by simpa using hlt y hy⟩
                rintro rfl
                simp [Tree.keys] at hy
              · exact absurd rfl hxk
              · exfalso
                apply hgo
                refine ⟨?_, by simpa using hgt y hy⟩
                rintro rfl
                simp [Tree.keys] at hy
    · have hx : x = .fin k := Dbl.ne_fin_eq_false.mp (by simpa using hne)
      rw [if_neg hne]
      simp [hx]

theorem limitExists_eq_rootProbe {h : LimitHeap} {root : Nat} {t : Tree}
    (hv : ValidTree h root t) (limit fuel : Nat) (hf : t.levels + 1 ≤ fuel) :
    limitExists fuel h root limit = .ok (rootProbe (h limit).limitPrice t) := by
  obtain ⟨hprice, hpar, hleft, hs, -⟩ := hv
  have hrn := hs.ptr_none_iff
  unfold limitExists rootProbe
  by_cases ht : t = .nil
  · simp [hpar, hrn, ht]
  · have hrc : ¬ (h root).rightChild = none := fun hc => ht (hrn.mp hc)
    rw [if_neg (by simp [hrc]), if_neg ht]
    obtain ⟨n, rfl⟩ : ∃ n, fuel = n + 1 := ⟨fuel - 1, by omega⟩
    rw [limitExistsLoop, hprice, hleft]
    by_cases hx : (h limit).limitPrice = .negInf
    · simp [hx, Dbl.ne]
    · have hne : Dbl.ne .negInf (h limit).limitPrice = true := by
        cases hq : Dbl.ne .negInf (h limit).limitPrice with
        | true => rfl
        | false => exact absurd (Dbl.ne_negInf_eq_false.mp hq) hx
      rw [if_pos hne, if_neg hx, if_neg (by simp [hrc])]
      by_cases hnan : (h limit).limitPrice = .nan
      · simp [hnan, Dbl.lt]
      · have hlt : Dbl.lt .negInf (h limit).limitPrice = true := Dbl.lt_negInf.mpr ⟨hnan, hx⟩
        rw [if_pos ⟨hrc, hlt⟩, if_neg hnan]
        cases hc : (h root).rightChild with
        | none => exact absurd hc hrc
        | some c =>
          rw [hc] at hs
          exact limitExistsLoop_eq_probe limit hs n (by omega)

/-! ## Insertion -/

theorem Shape.not_mem_of_price {h : LimitHeap} {t : Tree} {par p : Option Nat}
    (hs : Shape h par p t) {a : Nat} (ha : ∀ k ∈ t.keys, (h a).limitPrice ≠ .fin k) :
    a ∉ t.addrs := by
  intro hmem
  obtain ⟨k, hk, hpk⟩ := hs.price_of_mem a hmem
  exact ha k hk hpk

theorem Shape.node_disjoint {h : LimitHeap} {l r : Tree} {b : Nat} {kb : Int}
    {par p : Option Nat} (hs : Shape h par p (.node l b kb r)) (hb : (Tree.node l b kb r).BST) :
    b ∉ l.addrs ∧ b ∉ r.addrs ∧ ∀ a ∈ l.addrs, a ∉ r.addrs := by
  obtain ⟨-, hk, -, hl, hr⟩ := hs
  obtain ⟨hlt, hgt, -, -⟩ := hb
  refine ⟨?_, ?_, ?_⟩
  · apply hl.not_mem_of_price
    intro k hkm heq
    rw [hk] at heq
    have := hlt k hkm
    simp at heq
    omega
  · apply hr.not_mem_of_price
    intro k hkm heq
    rw [hk] at heq
    have := hgt k hkm
    simp at heq
    omega
  · intro a hal har
    obtain ⟨x, hx, hpx⟩ := hl.price_of_mem a hal
    obtain ⟨y, hy, hpy⟩ := hr.price_of_mem a har
    rw [hpx] at hpy
    have := hlt x hx
    have := hgt y hy
    simp at hpy
    omega

theorem Tree.mem_keys_insert {a : Nat} {k : Int} {t : Tree} (x : Int) :
    x ∈ (t.insert a k).keys ↔ x = k ∨ x ∈ t.keys := by
  induction t with
  | nil => simp [Tree.insert, Tree.keys]
  | node l b kb r ihl ihr =>
    simp only [Tree.insert]
    split_ifs with h1 h2
    · simp only [Tree.keys, List.mem_append, List.mem_cons, ihr]; tauto
    · simp only [Tree.keys, List.mem_append, List.mem_cons, ihl]; tauto
    · have : k = kb := by omega
      subst this
      simp only [Tree.keys, List.mem_append, List.mem_cons]; tauto

theorem Tree.keys_insert_perm {a : Nat} {k : Int} {t : Tree} (hk : k ∉ t.keys) :
    (t.insert a k).keys.Perm (k :: t.keys) := by
  induction t with
  | nil => simp [Tree.insert, Tree.keys]
  | node l b kb r ihl ihr =>
    simp only [Tree.keys, List.mem_append, List.mem_cons, not_or] at hk
    obtain ⟨hkl, hkb, hkr⟩ := hk
    simp only [Tree.insert]
    split_ifs with h1 h2
    · simp only [Tree.keys]
      have h3 : (l.keys ++ kb :: (Tree.insert a k r).keys).Perm (l.keys ++ kb :: k :: r.keys) :=
        List.Perm.append_left _ (List.Perm.cons _ (ihr hkr))
      refine h3.trans ?_
      have h4 : (l.keys ++ kb :: k :: r.keys).Perm (l.keys ++ k :: kb :: r.keys) :=
        List.Perm.append_left _ (List.Perm.swap _ _ _)
      exact h4.trans List.perm_middle
    · simp only [Tree.keys]
      have h3 : ((Tree.insert a k l).keys ++ kb :: r.keys).Perm ((k :: l.keys) ++ kb :: r.keys) :=
        List.Perm.append_right _ (ihl hkl)
      simpa using h3
    · omega

theorem Tree.BST_insert {a : Nat} {k : Int} {t : Tree} (hb : t.BST) : (t.insert a k).BST := by
  induction t with
  | nil => simp [Tree.insert, Tree.BST, Tree.keys]
  | node l b kb r ihl ihr =>
    obtain ⟨hlt, hgt, hbl, hbr⟩ := hb
    simp only [Tree.insert]
    split_ifs with h1 h2
    · refine ⟨hlt, ?_, hbl, ihr hbr⟩
      intro x hx
      rcases (Tree.mem_keys_insert x).mp hx with rfl | hx
      · exact h1
      · exact hgt x hx
    · refine ⟨?_, hgt, ihl hbl, hbr⟩
      intro x hx
      rcases (Tree.mem_keys_insert x).mp hx with rfl | hx
      · exact h2
      · exact hlt x hx
    · exact ⟨hlt, hgt, hbl, hbr⟩

theorem Tree.levels_insert_le (a : Nat) (k : Int) (t : Tree) :
    (t.insert a k).levels ≤ t.levels + 1 := by
  induction t with
  | nil => simp [Tree.insert, Tree.levels]
  | node l b kb r ihl ihr =>
    simp only [Tree.insert]
    split_ifs <;> simp only [Tree.levels] <;> omega

theorem Tree.levels_le_length (t : Tree) : t.levels ≤ t.keys.length := by
  induction t with
  | nil => simp [Tree.levels]
  | node l b kb r ihl ihr =>
    simp only [Tree.levels, Tree.keys, List.length_append, List.length_cons]
    omega

theorem Tree.BST.sorted_keys {t : Tree} (hb : t.BST) : t.keys.Sorted (· < ·) := by
  induction t with
  | nil => simp [Tree.keys]
  | node l b kb r ihl ihr =>
    obtain ⟨hlt, hgt, hbl, hbr⟩ := hb
    simp only [Tree.keys, List.Sorted, List.pairwise_append, List.pairwise_cons,
      List.mem_cons]
    refine ⟨ihl hbl, ⟨hgt, ihr hbr⟩, ?_⟩
    rintro x hx y (rfl | hy)
    · exact hlt x hx
    · exact lt_trans (hlt x hx) (hgt y hy)

theorem addNewLimitLoop_insert {h : LimitHeap} {limit : Nat} {k : Int}
    (hk : (h limit).limitPrice = .fin k) (hlc : (h limit).leftChild = none)
    (hrc : (h limit).rightChild = none) {t : Tree} :
    ∀ {par : Option Nat} {b : Nat}, Shape h par (some b) t → t.BST → k ∉ t.keys →
      ∀ fuel, t.levels ≤ fuel →
      ∃ h', addNewLimitLoop fuel h b limit = .ok (1, h') ∧
        Shape h' par (some b) (t.insert limit k) ∧
        (∀ c, c ∉ t.addrs → c ≠ limit → h' c = h c) ∧
        ∃ q, h' limit = { h limit with parent := some q } := by
  induction t with
  | nil => intro par b hs; simp [Shape] at hs
  | node l a ka r ihl ihr =>
    intro par b hs hb hkn fuel hf
    have hdis := hs.node_disjoint hb
    have hlim : limit ∉ (Tree.node l a ka r).addrs := by
      apply hs.not_mem_of_price
      intro x hx heq
      rw [hk] at heq
      simp only [Dbl.fin.injEq] at heq
      exact hkn (heq ▸ hx)
    obtain ⟨hp, hka, hpar, hl, hr⟩ := hs
    obtain rfl : b = a := by simpa using hp
    obtain ⟨hlt, hgt, hbl, hbr⟩ := hb
    simp only [Tree.keys, List.mem_append, List.mem_cons, not_or] at hkn
    simp only [Tree.addrs, List.mem_append, List.mem_cons, not_or] at hlim
    obtain ⟨hkl, hkb, hkr⟩ := hkn
    obtain ⟨hliml, hlimb, hlimr⟩ := hlim
    obtain ⟨n, rfl⟩ : ∃ n, fuel = n + 1 := ⟨fuel - 1, by simp only [Tree.levels] at hf; omega⟩
    simp only [Tree.levels] at hf
    rw [addNewLimitLoop, hka, hk]
    simp only [Dbl.lt_fin_fin, Dbl.gt_fin_fin, decide_eq_true_eq, Tree.insert]
    by_cases h1 : ka < k
    · rw [if_pos h1, if_pos h1]
      cases hc : (h b).rightChild with
      | none =>
        rw [hc] at hr
        have hrnil : r = .nil := hr.ptr_none_iff.mp rfl
        subst hrnil
        refine ⟨_, rfl, ?_, ?_, ?_⟩
        · refine ⟨rfl, ?_, ?_, ?_, ?_⟩
          · simp [Function.update, hlimb, Ne.symm hlimb, hka]
          · simp [Function.update, hlimb, Ne.symm hlimb, hpar]
          · have : (Function.update (Function.update h b { h b with rightChild := some limit })
                limit { (Function.update h b { h b with rightChild := some limit }) limit with
                  parent := some b } b).leftChild = (h b).leftChild := by
              simp [Function.update, hlimb, Ne.symm hlimb]
            rw [this]
            apply hl.frame
            intro c hcl
            have hcb : c ≠ b := fun e => hdis.1 (e ▸ hcl)
            have hclim : c ≠ limit := fun e => hliml (e ▸ hcl)
            simp [Function.update, hcb, hclim]
          · simp [Function.update, hlimb, Ne.symm hlimb, Shape, Tree.insert, hk, hlc, hrc]
        · intro c hcn hclim
          simp only [Tree.addrs, List.mem_append, List.mem_cons, not_or] at hcn
          simp [Function.update, hclim, hcn.2.1]
        · exact ⟨b, by simp [Function.update, hlimb]⟩
      | some c =>
        rw [hc] at hr
        obtain ⟨h', hrun, hs', hfr, hq⟩ := ihr hr hbr hkr n (by omega)
        have hbb : h' b = h b := hfr b hdis.2.1 (Ne.symm hlimb)
        refine ⟨h', hrun, ⟨rfl, by rw [hbb]; exact hka, by rw [hbb]; exact hpar, ?_, ?_⟩, ?_, hq⟩
        · rw [hbb]
          apply hl.frame
          intro d hd
          exact hfr d (hdis.2.2 d hd) (fun e => hliml (e ▸ hd))
        · rw [hbb, hc]; exact hs'
        · intro d hdn hdlim
          simp only [Tree.addrs, List.mem_append, List.mem_cons, not_or] at hdn
          exact hfr d hdn.2.2 hdlim
    · have h2 : k < ka := by omega
      rw [if_neg h1, if_neg h1, if_pos h2, if_pos h2]
      cases hc : (h b).leftChild with
      | none =>
        rw [hc] at hl
        have hlnil : l = .nil := hl.ptr_none_iff.mp rfl
        subst hlnil
        refine ⟨_, rfl, ?_, ?_, ?_⟩
        · refine ⟨rfl, ?_, ?_, ?_, ?_⟩
          · simp [Function.update, hlimb, Ne.symm hlimb, hka]
          · simp [Function.update, hlimb, Ne.symm hlimb, hpar]
          · simp [Function.update, hlimb, Ne.symm hlimb, Shape, Tree.insert, hk, hlc, hrc]
          · have : (Function.update (Function.update h b { h b with leftChild := some limit })
                limit { (Function.update h b { h b with leftChild := some limit }) limit with
                  parent := some b } b).rightChild = (h b).rightChild := by
              simp [Function.update, hlimb, Ne.symm hlimb]
            rw [this]
            apply hr.frame
            intro c hcr
            have hcb : c ≠ b := fun e => hdis.2.1 (e ▸ hcr)
            have hclim : c ≠ limit := fun e => hlimr (e ▸ hcr)
            simp [Function.update, hcb, hclim]
        · intro c hcn hclim
          simp only [Tree.addrs, List.mem_append, List.mem_cons, not_or] at hcn
          simp [Function.update, hclim, hcn.2.1]
        · exact ⟨b, by simp [Function.update, hlimb]⟩
      | some c =>
        rw [hc] at hl
        obtain ⟨h', hrun, hs', hfr, hq⟩ := ihl hl hbl hkl n (by omega)
        have hbb : h' b = h b := hfr b hdis.1 (Ne.symm hlimb)
        refine ⟨h', hrun, ⟨rfl, by rw [hbb]; exact hka, by rw [hbb]; exact hpar, ?_, ?_⟩, ?_, hq⟩
        · rw [hbb, hc]; exact hs'
        · rw [hbb]
          apply hr.frame
          intro d hd
          exact hfr d (fun e => hdis.2.2 d e hd) (fun e => hlimr (e ▸ hd))
        · intro d hdn hdlim
          simp only [Tree.addrs, List.mem_append, List.mem_cons, not_or] at hdn
          exact hfr d hdn.1 hdlim

theorem update_limitPrice (h : LimitHeap) (a : Nat) (r : Limit)
    (hr : r.limitPrice = (h a).limitPrice) (c : Nat) :
    (Function.update h a r c).limitPrice = (h c).limitPrice := by
  by_cases e : c = a
  · subst e; simp [hr]
  · simp [Function.update, e]

theorem addNewLimitLoop_price {limit : Nat} :
    ∀ (fuel : Nat) {h h' : LimitHeap} {b : Nat} {v : Int},
      addNewLimitLoop fuel h b limit = .ok (v, h') →
      ∀ c, (h' c).limitPrice = (h c).limitPrice := by
  intro fuel
  induction fuel with
  | zero => intro h h' b v hrun; simp [addNewLimitLoop] at hrun
  | succ n ih =>
    intro h h' b v hrun c
    rw [addNewLimitLoop] at hrun
    split_ifs at hrun with h1 h2
    · cases hc : (h b).rightChild with
      | some d => rw [hc] at hrun; exact ih hrun c
      | none =>
        rw [hc] at hrun
        obtain ⟨-, rfl⟩ := Prod.mk.inj (Except.ok.inj hrun)
        refine (update_limitPrice _ _ _ ?_ c).trans (update_limitPrice _ _ _ ?_ c) <;> rfl
    · cases hc : (h b).leftChild with
      | some d => rw [hc] at hrun; exact ih hrun c
      | none =>
        rw [hc] at hrun
        obtain ⟨-, rfl⟩ := Prod.mk.inj (Except.ok.inj hrun)
        refine (update_limitPrice _ _ _ ?_ c).trans (update_limitPrice _ _ _ ?_ c) <;> rfl
    · obtain ⟨-, rfl⟩ := Prod.mk.inj (Except.ok.inj hrun)
      rfl

theorem ValidTree.root_not_mem {h : LimitHeap} {root : Nat} {t : Tree}
    (hv : ValidTree h root t) : root ∉ t.addrs := by
  apply hv.2.2.2.1.not_mem_of_price
  intro k _ heq
  rw [hv.1] at heq
  exact Dbl.noConfusion heq

theorem addNewLimit_insert {h : LimitHeap} {root limit : Nat} {k : Int} {t : Tree}
    (hv : ValidTree h root t) (hk : (h limit).limitPrice = .fin k) (hkn : k ∉ t.keys)
    (fuel : Nat) (hf : t.levels + 1 ≤ fuel) :
    ∃ h', addNewLimit fuel h root limit = .ok (1, h') ∧ ValidTree h' root (t.insert limit k) ∧
      ∀ c, (h' c).limitPrice = (h c).limitPrice := by
  have hprobe : rootProbe (h limit).limitPrice t ≠ 1 := by
    rw [hk]
    unfold rootProbe
    by_cases h1 : t = .nil
    · simp [h1]
    · rw [if_neg h1, if_neg (by simp), if_neg (by simp)]
      intro hp
      obtain ⟨x, hx, hxe⟩ := (Tree.probe_eq_one_iff hv.2.2.2.2 _).mp hp
      simp only [Dbl.fin.injEq] at hxe
      exact hkn (hxe ▸ hx)
  have hroot := hv.root_not_mem
  obtain ⟨hprice, hpar, hleft, hs, hb⟩ := hv
  have hlr : limit ≠ root := by
    rintro rfl
    rw [hk] at hprice
    exact Dbl.noConfusion hprice
  have hlim : limit ∉ t.addrs := by
    apply hs.not_mem_of_price
    intro x hx heq
    rw [hk] at heq
    simp only [Dbl.fin.injEq] at heq
    exact hkn (heq ▸ hx)
  unfold addNewLimit
  rw [limitExists_eq_rootProbe ⟨hprice, hpar, hleft, hs, hb⟩ limit fuel hf]
  simp only [if_neg hprobe]
  generalize hh2 : Function.update (Function.update h limit { h limit with leftChild := none })
    limit { (Function.update h limit { h limit with leftChild := none }) limit with
      rightChild := none } = h2
  have h2lim : h2 limit = { h limit with leftChild := none, rightChild := none } := by
    rw [← hh2]; simp [Function.update]
  have h2oth : ∀ c, c ≠ limit → h2 c = h c := by
    intro c hc; rw [← hh2]; simp [Function.update, hc]
  have h2price : ∀ c, (h2 c).limitPrice = (h c).limitPrice := by
    intro c
    by_cases hc : c = limit
    · subst hc; rw [h2lim]
    · rw [h2oth c hc]
  have hs2 : Shape h2 (some root) (h root).rightChild t :=
    hs.frame (fun a ha => h2oth a (fun e => hlim (e ▸ ha)))
  have hr2 : h2 root = h root := h2oth root (Ne.symm hlr)
  obtain ⟨n, rfl⟩ : ∃ n, fuel = n + 1 := ⟨fuel - 1, by omega⟩
  rw [addNewLimitLoop, hr2, hprice, h2price limit, hk]
  simp only [Dbl.lt, if_true]
  cases hc : (h root).rightChild with
  | none =>
    rw [hc] at hs
    have ht : t = .nil := hs.ptr_none_iff.mp rfl
    subst ht
    refine ⟨_, rfl, ⟨?_, ?_, ?_, ?_, ?_⟩, ?_⟩
    · simp [Function.update, hlr, Ne.symm hlr, hprice]
    · simp [Function.update, hlr, Ne.symm hlr, hpar]
    · simp [Function.update, hlr, Ne.symm hlr, hleft]
    · simp [Function.update, hlr, Ne.symm hlr, Shape, Tree.insert, h2lim, hk]
    · simp [Tree.insert, Tree.BST, Tree.keys]
    · intro c
      refine ((update_limitPrice _ _ _ ?_ c).trans (update_limitPrice _ _ _ ?_ c)).trans
        (h2price c) <;> first | rfl | simp [hr2]
  | some c =>
    rw [hc] at hs2
    have hk2 : (h2 limit).limitPrice = .fin k := by rw [h2price, hk]
    obtain ⟨h', hrun, hs', hfr, q, hq⟩ := addNewLimitLoop_insert hk2 (by rw [h2lim])
      (by rw [h2lim]) hs2 hb hkn n (by omega)
    have hroot' : h' root = h root := by rw [hfr root hroot (Ne.symm hlr), hr2]
    refine ⟨h', hrun, ⟨by rw [hroot']; exact hprice, by rw [hroot']; exact hpar,
      by rw [hroot']; exact hleft, by rw [hroot', hc]; exact hs', Tree.BST_insert hb⟩, ?_⟩
    intro d
    rw [addNewLimitLoop_price n hrun d, h2price]

theorem createRoot_valid (h0 : LimitHeap) (root : Nat) :
    ValidTree (createRoot h0 root) root .nil := by
  simp [ValidTree, createRoot, initLimit, Shape, Tree.BST]

theorem addAll_spec (root fuel : Nat) :
    ∀ (limits : List Nat) (prices : List Int) (h : LimitHeap) (t : Tree),
      ValidTree h root t → limits.map (fun a => (h a).limitPrice) = prices.map Dbl.fin →
      prices.Nodup → (∀ k ∈ prices, k ∉ t.keys) → t.keys.length + limits.length + 1 ≤ fuel →
      ∃ h' t', addAll fuel root h limits = .ok (List.replicate limits.length 1, h') ∧
        ValidTree h' root t' ∧ t'.keys.Perm (prices ++ t.keys) := by
  intro limits
  induction limits with
  | nil =>
    intro prices h t hv hp _ _ _
    have : prices = [] := by simpa using hp.symm
    subst this
    exact ⟨h, t, rfl, hv, by simp⟩
  | cons a as ih =>
    intro prices h t hv hp hd hnew hf
    cases prices with
    | nil => simp at hp
    | cons k ks =>
      simp only [List.map_cons, List.cons.injEq] at hp
      obtain ⟨hk, hrest⟩ := hp
      have hkn : k ∉ t.keys := hnew k (by simp)
      simp only [List.length_cons] at hf
      have hlev := t.levels_le_length
      obtain ⟨h1, hrun, hv1, hpr⟩ := addNewLimit_insert hv hk hkn fuel (by omega)
      have hperm := Tree.keys_insert_perm (a := a) hkn
      have hlen : (t.insert a k).keys.length = t.keys.length + 1 := by
        simpa using hperm.length_eq
      have hd' := List.nodup_cons.mp hd
      obtain ⟨h', t', hrun', hv', hperm'⟩ := ih ks h1 (t.insert a k) hv1
        (by rw [← hrest]; exact List.map_congr_left (fun c _ => hpr c)) hd'.2
        (by
          intro x hx hmem
          rcases (Tree.mem_keys_insert x).mp hmem with rfl | hmem
          · exact hd'.1 hx
          · exact hnew x (by simp [hx]) hmem)
        (by omega)
      refine ⟨h', t', ?_, hv', ?_⟩
      · simp [addAll, hrun, hrun', List.replicate_succ]
      · refine hperm'.trans ?_
        refine (List.Perm.append_left ks hperm).trans ?_
        exact List.perm_middle

/-! ## Claims on the Limit tree -/

/-- C1: from an empty sentinel root made by `createRoot`, calling `addNewLimit`
for a sequence of limits with pairwise distinct (finite) prices returns 1 at
every call, and the in-order traversal by child links of the tree below the
sentinel is a strictly increasing list holding exactly the inserted prices. -/
theorem addNewLimit_sequence_inorder (h0 : LimitHeap) (root : Nat) (limits : List Nat)
    (prices : List Int)
    (hp : limits.map (fun a => (createRoot h0 root a).limitPrice) = prices.map Dbl.fin)
    (hd : prices.Nodup) (fuel : Nat) (hf : limits.length + 1 ≤ fuel) :
    ∃ (h' : LimitHeap) (out : List Int), addAll fuel root (createRoot h0 root) limits
          = .ok (List.replicate limits.length 1, h') ∧
      inorder fuel h' (h' root).rightChild = .ok (out.map Dbl.fin) ∧
      out.Sorted (· < ·) ∧ out.Perm prices := by
  obtain ⟨h', t', hrun, hv, hperm⟩ := addAll_spec root fuel limits prices (createRoot h0 root)
    .nil (createRoot_valid h0 root) hp hd (by simp [Tree.keys]) (by simpa [Tree.keys] using hf)
  simp only [Tree.keys, List.append_nil] at hperm
  have hlen : t'.keys.length = limits.length := by
    have h1 := hperm.length_eq
    have h2 := congrArg List.length hp
    simp only [List.length_map] at h2
    omega
  have hlev := t'.levels_le_length
  exact ⟨h', t'.keys, hrun, inorder_of_shape hv.2.2.2.1 fuel (by omega),
    hv.2.2.2.2.sorted_keys, hperm⟩

theorem addNewLimit_sequence_inorder_witness :
    ∃ (h' : LimitHeap) (out : List Int), addAll 6 0 (createRoot pricedHeap 0) [10, 5, 15, 3, 7]
          = .ok (List.replicate [10, 5, 15, 3, 7].length 1, h') ∧
      inorder 6 h' (h' 0).rightChild = .ok (out.map Dbl.fin) ∧
      out.Sorted (· < ·) ∧ out.Perm [10, 5, 15, 3, 7] :=
  addNewLimit_sequence_inorder pricedHeap 0 [10, 5, 15, 3, 7] [10, 5, 15, 3, 7]
    (by decide) (by decide) 6 (by decide)

theorem rootProbe_eq_one_iff {h : LimitHeap} {root : Nat} {t : Tree}
    (hv : ValidTree h root t) (hne : t ≠ .nil) (x : Dbl) :
    rootProbe x t = 1 ↔ ∃ a, (a = root ∨ a ∈ t.addrs) ∧ Dbl.ne (h a).limitPrice x = false := by
  unfold rootProbe
  rw [if_neg hne]
  by_cases hx : x = .negInf
  · rw [if_pos hx]
    simp only [true_iff]
    exact ⟨root, Or.inl rfl, by rw [hv.1, hx]; rfl⟩
  · rw [if_neg hx]
    by_cases hnan : x = .nan
    · rw [if_pos hnan]
      constructor
      · intro hc; simp at hc
      · rintro ⟨a, -, ha⟩
        rw [hnan] at ha
        cases hq : (h a).limitPrice <;> rw [hq] at ha <;> simp [Dbl.ne] at ha
    · rw [if_neg hnan, Tree.probe_eq_one_iff hv.2.2.2.2]
      constructor
      · rintro ⟨k, hk, hxk⟩
        obtain ⟨a, ha, hpa⟩ := hv.2.2.2.1.key_of_mem k hk
        exact ⟨a, Or.inr ha, by rw [hpa, hxk]; simp⟩
      · rintro ⟨a, rfl | ha, hq⟩
        · rw [hv.1] at hq
          exact absurd (Dbl.ne_negInf_eq_false.mp hq) hx
        · obtain ⟨k, hk, hpa⟩ := hv.2.2.2.1.price_of_mem a ha
          rw [hpa] at hq
          exact ⟨k, hk, Dbl.ne_fin_eq_false.mp hq⟩

theorem limitExists_of_held {h : LimitHeap} {root target : Nat} {t : Tree}
    (hv : ValidTree h root t) (hne : t ≠ .nil)
    (hheld : ∃ a, (a = root ∨ a ∈ t.addrs) ∧
      Dbl.ne (h a).limitPrice (h target).limitPrice = false)
    (fuel : Nat) (hf : t.levels + 1 ≤ fuel) :
    limitExists fuel h root target = .ok 1 := by
  rw [limitExists_eq_rootProbe hv target fuel hf]
  congr 1
  exact (rootProbe_eq_one_iff hv hne _).mpr hheld

/-- C2: on a non-empty valid sentinel-rooted BST, `limitExists(root, target)`
returns, and it returns 1 if and only if some node of the tree (the sentinel
or a node below it) holds the target's price; in particular it returns 1 for
every target whose price is that of a node below the sentinel. -/
theorem limitExists_one_iff_held (h : LimitHeap) (root target : Nat) (t : Tree)
    (hv : ValidTree h root t) (hne : t ≠ .nil) (fuel : Nat) (hf : t.levels + 1 ≤ fuel) :
    (∃ v, limitExists fuel h root target = .ok v ∧
      (v = 1 ↔ ∃ a, (a = root ∨ a ∈ t.addrs) ∧
        Dbl.ne (h a).limitPrice (h target).limitPrice = false)) ∧
    ((∃ a ∈ t.addrs, (h target).limitPrice = (h a).limitPrice) →
      limitExists fuel h root target = .ok 1) := by
  refine ⟨⟨_, limitExists_eq_rootProbe hv target fuel hf, rootProbe_eq_one_iff hv hne _⟩, ?_⟩
  rintro ⟨a, ha, hpa⟩
  apply limitExists_of_held hv hne _ fuel hf
  obtain ⟨k, -, hk⟩ := hv.2.2.2.1.price_of_mem a ha
  exact ⟨a, Or.inr ha, by rw [hpa, hk]; simp⟩

theorem limitExists_one_iff_held_witness :
    (∃ v, limitExists 4 (builtHeap [10, 5, 15, 3, 7]) 0 7 = .ok v ∧
      (v = 1 ↔ ∃ a, (a = 0 ∨ a ∈ test5Tree.addrs) ∧
        Dbl.ne (builtHeap [10, 5, 15, 3, 7] a).limitPrice
          (builtHeap [10, 5, 15, 3, 7] 7).limitPrice = false)) ∧
    ((∃ a ∈ test5Tree.addrs, (builtHeap [10, 5, 15, 3, 7] 7).limitPrice
        = (builtHeap [10, 5, 15, 3, 7] a).limitPrice) →
      limitExists 4 (builtHeap [10, 5, 15, 3, 7]) 0 7 = .ok 1) :=
  limitExists_one_iff_held (builtHeap [10, 5, 15, 3, 7]) 0 7 test5Tree (by decide) (by decide)
    4 (by decide)

/-- C3: `limitExists` answers -1, not 0, for a price that no node of a valid
sentinel-rooted BST holds, whenever the descent stops at a node that still has
a child on the other side. (1) In the valid BST built by inserting 10 and 5,
the price 20 is held by no node and the call returns -1. (2) Removing the leaf 3
from the tree built by inserting 10, 5, 15, 3, 7 succeeds and leaves a valid BST
of the other four prices, in which no node holds price 3, and the call for
price 3 returns -1. (3) When the descent stops at a node without children the
answer is 0: the prices 1, 6 and 20 in the five-node tree. -/
theorem limitExists_absent_returns_minus_one :
    (ValidTree (builtHeap [10, 5]) 0 (.node (.node .nil 5 5 .nil) 10 10 .nil) ∧
      (∀ a ∈ 0 :: (Tree.node (.node .nil 5 5 .nil) 10 10 .nil).addrs,
        Dbl.ne (builtHeap [10, 5] a).limitPrice (builtHeap [10, 5] 20).limitPrice = true) ∧
      limitExists 3 (builtHeap [10, 5]) 0 20 = .ok (-1)) ∧
    ((∃ h : LimitHeap, removeLimit 6 (builtHeap [10, 5, 15, 3, 7]) 3 = .ok (1, h)) ∧
      ValidTree (removedHeap [10, 5, 15, 3, 7] 3) 0
        (.node (.node .nil 5 5 (.node .nil 7 7 .nil)) 10 10 (.node .nil 15 15 .nil)) ∧
      (∀ a ∈ 0 :: (Tree.node (.node .nil 5 5 (.node .nil 7 7 .nil)) 10 10
          (.node .nil 15 15 .nil)).addrs,
        Dbl.ne (removedHeap [10, 5, 15, 3, 7] 3 a).limitPrice
          (removedHeap [10, 5, 15, 3, 7] 3 3).limitPrice = true) ∧
      limitExists 4 (removedHeap [10, 5, 15, 3, 7] 3) 0 3 = .ok (-1)) ∧
    (ValidTree (builtHeap [10, 5, 15, 3, 7]) 0 test5Tree ∧
      limitExists 4 (builtHeap [10, 5, 15, 3, 7]) 0 1 = .ok 0 ∧
      limitExists 4 (builtHeap [10, 5, 15, 3, 7]) 0 6 = .ok 0 ∧
      limitExists 4 (builtHeap [10, 5, 15, 3, 7]) 0 20 = .ok 0) := by
  refine ⟨by decide, ⟨⟨_, rfl⟩, by decide, by decide, by decide⟩, by decide⟩

/-- C4: on a valid sentinel-rooted BST, for a limit whose price is held by a
node below the sentinel (or by the sentinel of a non-empty tree),
`addNewLimit` returns 0 and the memory afterwards is the memory before: no
link of any node and no field of the limit has changed. -/
theorem addNewLimit_existing_noop (h : LimitHeap) (root limit : Nat) (t : Tree)
    (hv : ValidTree h root t)
    (hheld : ∃ a, ((a = root ∧ t ≠ .nil) ∨ a ∈ t.addrs) ∧
      Dbl.ne (h a).limitPrice (h limit).limitPrice = false)
    (fuel : Nat) (hf : t.levels + 1 ≤ fuel) :
    addNewLimit fuel h root limit = .ok (0, h) := by
  have hne : t ≠ .nil := by
    obtain ⟨a, ha | ha, -⟩ := hheld
    · exact ha.2
    · rintro rfl
      simp [Tree.addrs] at ha
  have hone : limitExists fuel h root limit = .ok 1 := by
    obtain ⟨a, ha, hq⟩ := hheld
    exact limitExists_of_held hv hne ⟨a, ha.imp (fun x => x.1) id, hq⟩ fuel hf
  simp [addNewLimit, hone]

theorem addNewLimit_existing_noop_witness :
    addNewLimit 4 (builtHeap [10, 5, 15, 3, 7]) 0 7 = .ok (0, builtHeap [10, 5, 15, 3, 7]) :=
  addNewLimit_existing_noop (builtHeap [10, 5, 15, 3, 7]) 0 7 test5Tree (by decide)
    ⟨7, by decide, by decide⟩ 4 (by decide)

/-! ## Order lists: lemmas -/

theorem OrderList.links_frame {o o' : OrderHeap} {rs : List Nat} :
    ∀ {prev p : Option Nat}, OrderList o prev p rs →
      (∀ a ∈ rs, (o' a).nextOrder = (o a).nextOrder ∧ (o' a).prevOrder = (o a).prevOrder) →
      OrderList o' prev p rs := by
  induction rs with
  | nil => intro prev p hl _; exact hl
  | cons a rest ih =>
    intro prev p hl hfr
    obtain ⟨hp, hprev, hrest⟩ := hl
    have ha := hfr a (by simp)
    refine ⟨hp, by rw [ha.2]; exact hprev, ?_⟩
    rw [ha.1]
    exact ih hrest (fun b hb => hfr b (by simp [hb]))

theorem OrderList.head_eq {o : OrderHeap} {prev p : Option Nat} {rs : List Nat}
    (hl : OrderList o prev p rs) : p = rs.head? := by
  cases rs with
  | nil => exact hl
  | cons a rest => exact hl.1

theorem OrderList.prev_last {o : OrderHeap} {b a : Nat} {xs : List Nat} :
    ∀ {prev p : Option Nat}, OrderList o prev p (xs ++ [b, a]) → (o a).prevOrder = some b := by
  induction xs with
  | nil => intro prev p hl; exact hl.2.2.2.1
  | cons x xs ih => intro prev p hl; exact ih hl.2.2

theorem OrderList.drop_last {o : OrderHeap} {b a : Nat} {xs : List Nat} :
    ∀ {prev p : Option Nat}, OrderList o prev p (xs ++ [b, a]) → b ∉ xs →
      OrderList (Function.update o b { o b with nextOrder := none }) prev p (xs ++ [b]) := by
  induction xs with
  | nil =>
    intro prev p hl _
    obtain ⟨hp, hprev, -⟩ := hl
    exact ⟨hp, by simpa using hprev, by simp [OrderList]⟩
  | cons x xs ih =>
    intro prev p hl hb
    obtain ⟨hp, hprev, hrest⟩ := hl
    have hxb : x ≠ b := fun e => hb (by simp [e])
    refine ⟨hp, by simpa [Function.update, hxb] using hprev, ?_⟩
    have : (Function.update o b { o b with nextOrder := none } x).nextOrder = (o x).nextOrder := by
      simp [Function.update, hxb]
    rw [this]
    exact ih hrest (fun hm => hb (by simp [hm]))

theorem pushOrder_reject {m : Mem} {l o : Nat}
    (hrej : Dbl.ne (m.limits l).limitPrice (m.orders o).limit = true) :
    pushOrder m l o = (0, m) := by
  simp [pushOrder, hrej]

theorem pushOrder_limit {m : Mem} {l o : Nat}
    (hacc : Dbl.ne (m.limits l).limitPrice (m.orders o).limit = false) :
    (pushOrder m l o).1 = 1 ∧
    ((pushOrder m l o).2.limits l).limitPrice = (m.limits l).limitPrice ∧
    ((pushOrder m l o).2.limits l).headOrder = some o ∧
    ((pushOrder m l o).2.limits l).tailOrder =
      (if (m.limits l).headOrder = none then some o else (m.limits l).tailOrder) ∧
    ((pushOrder m l o).2.limits l).orderCount = (m.limits l).orderCount + 1 ∧
    ((pushOrder m l o).2.limits l).size = Dbl.add (m.limits l).size (m.orders o).shares ∧
    ((pushOrder m l o).2.limits l).totalVolume =
      Dbl.add (m.limits l).totalVolume (Dbl.mul (m.orders o).shares (m.limits l).limitPrice) := by
  unfold pushOrder
  rw [if_neg (by simp [hacc])]
  cases hh : (m.limits l).headOrder with
  | none => simp [Function.update]
  | some hd =>
    by_cases e : o = hd
    · subst e; simp [Function.update]
    · simp [Function.update, e]

theorem pushOrder_orders {m : Mem} {l o : Nat}
    (hacc : Dbl.ne (m.limits l).limitPrice (m.orders o).limit = false) :
    (∀ a, ((pushOrder m l o).2.orders a).shares = (m.orders a).shares ∧
      ((pushOrder m l o).2.orders a).limit = (m.orders a).limit) ∧
    (∀ a, a ≠ o → ((pushOrder m l o).2.orders a).nextOrder = (m.orders a).nextOrder) ∧
    (∀ a, a ≠ o → some a ≠ (m.limits l).headOrder →
      ((pushOrder m l o).2.orders a).prevOrder = (m.orders a).prevOrder) ∧
    (∀ a, a ≠ o → some a = (m.limits l).headOrder →
      ((pushOrder m l o).2.orders a).prevOrder = some o) ∧
    (some o ≠ (m.limits l).headOrder →
      ((pushOrder m l o).2.orders o).prevOrder = none ∧
      ((pushOrder m l o).2.orders o).nextOrder = (m.limits l).headOrder) := by
  unfold pushOrder
  rw [if_neg (by simp [hacc])]
  cases hh : (m.limits l).headOrder with
  | none =>
    refine ⟨?_, ?_, ?_, ?_, ?_⟩
    · intro a
      by_cases e : a = o
      · subst e; simp [Function.update]
      · simp [Function.update, e]
    · intro a e; simp [Function.update, e]
    · intro a e _; simp [Function.update, e]
    · intro a _ hc; simp at hc
    · intro _; simp [Function.update]
  | some hd =>
    refine ⟨?_, ?_, ?_, ?_, ?_⟩
    · intro a
      by_cases e : a = o <;> by_cases e2 : a = hd
      · subst e; subst e2; simp [Function.update]
      · subst e; simp [Function.update, e2]
      · subst e2; simp [Function.update, e]
      · simp [Function.update, e, e2]
    · intro a e
      by_cases e2 : a = hd
      · subst e2; simp [Function.update, e]
      · simp [Function.update, e, e2]
    · intro a e hne
      have e2 : a ≠ hd := fun x => hne (by rw [x])
      simp [Function.update, e, e2]
    · intro a e heq
      have e2 : a = hd := by simpa using heq
      subst e2
      simp [Function.update]
    · intro hne
      have e2 : o ≠ hd := fun x => hne (by rw [x])
      simp [Function.update, e2]

theorem pushOrder_wf {m : Mem} {l o : Nat} {rs : List Nat} (hw : WellFormed m l rs)
    (ho : o ∉ rs) (hacc : Dbl.ne (m.limits l).limitPrice (m.orders o).limit = false) :
    WellFormed (pushOrder m l o).2 l (o :: rs) := by
  obtain ⟨hl, ht, hnd⟩ := hw
  obtain ⟨-, -, hhead, htail, -, -, -⟩ := pushOrder_limit hacc
  obtain ⟨-, hnext, hprev, hprevhd, hself⟩ := pushOrder_orders hacc
  have hhd := hl.head_eq
  have hone : some o ≠ (m.limits l).headOrder := by
    rw [hhd]
    cases rs with
    | nil => simp
    | cons x xs =>
      simp only [List.head?_cons, ne_eq, Option.some.injEq]
      exact fun e => ho (by simp [e])
  obtain ⟨hsp, hsn⟩ := hself hone
  refine ⟨⟨hhead, hsp, ?_⟩, ?_, List.nodup_cons.mpr ⟨ho, hnd⟩⟩
  · rw [hsn]
    cases rs with
    | nil => exact hl
    | cons x xs =>
      obtain ⟨hp, -, hrest⟩ := hl
      have hxo : x ≠ o := fun e => ho (by simp [e])
      refine ⟨hp, hprevhd x hxo hp.symm, ?_⟩
      rw [hnext x hxo]
      apply hrest.links_frame
      intro a ha
      have hao : a ≠ o := fun e => ho (by simp [← e, ha])
      have hax : some a ≠ (m.limits l).headOrder := by
        rw [hp]
        simp only [ne_eq, Option.some.injEq]
        rintro rfl
        exact (List.nodup_cons.mp hnd).1 ha
      exact ⟨hnext a hao, hprev a hao hax⟩
  · rw [htail, ht]
    cases rs with
    | nil => rw [hhd]; simp
    | cons x xs => rw [hhd]; simp [List.getLast?_cons_cons]

theorem popOrder_empty {m : Mem} {l : Nat} (ht : (m.limits l).tailOrder = none) :
    popOrder m l = (none, m) := by
  simp [popOrder, ht]

theorem popOrder_orders (m : Mem) (l : Nat) (c : Nat) :
    ((popOrder m l).2.orders c).shares = (m.orders c).shares ∧
      ((popOrder m l).2.orders c).limit = (m.orders c).limit := by
  cases ht : (m.limits l).tailOrder with
  | none => simp [popOrder, ht]
  | some a =>
    cases hp : (m.orders a).prevOrder with
    | none => simp [popOrder, ht, hp]
    | some b =>
      by_cases e : c = b
      · subst e; simp [popOrder, ht, hp, Function.update]
      · simp [popOrder, ht, hp, Function.update, e]

theorem popOrder_single {m : Mem} {l a : Nat} (ht : (m.limits l).tailOrder = some a)
    (hp : (m.orders a).prevOrder = none) :
    (popOrder m l).1 = some a ∧ (popOrder m l).2.orders = m.orders ∧
    ((popOrder m l).2.limits l).limitPrice = (m.limits l).limitPrice ∧
    ((popOrder m l).2.limits l).headOrder = none ∧
    ((popOrder m l).2.limits l).tailOrder = none ∧
    ((popOrder m l).2.limits l).orderCount = 0 ∧
    ((popOrder m l).2.limits l).size = .fin 0 ∧
    ((popOrder m l).2.limits l).totalVolume = .fin 0 := by
  simp [popOrder, ht, hp, Function.update]

theorem popOrder_several {m : Mem} {l a b : Nat} (ht : (m.limits l).tailOrder = some a)
    (hp : (m.orders a).prevOrder = some b) :
    (popOrder m l).1 = some a ∧
    (popOrder m l).2.orders = Function.update m.orders b { m.orders b with nextOrder := none } ∧
    ((popOrder m l).2.limits l).limitPrice = (m.limits l).limitPrice ∧
    ((popOrder m l).2.limits l).headOrder = (m.limits l).headOrder ∧
    ((popOrder m l).2.limits l).tailOrder = some b ∧
    ((popOrder m l).2.limits l).orderCount = (m.limits l).orderCount - 1 ∧
    ((popOrder m l).2.limits l).size = Dbl.sub (m.limits l).size (m.orders a).shares ∧
    ((popOrder m l).2.limits l).totalVolume =
      Dbl.sub (m.limits l).totalVolume (Dbl.mul (m.orders a).shares (m.limits l).limitPrice) := by
  by_cases e : a = b
  · subst e; simp [popOrder, ht, hp, Function.update]
  · simp [popOrder, ht, hp, Function.update, e]

theorem popOrder_wf {m : Mem} {l : Nat} {rs : List Nat} (hw : WellFormed m l rs) :
    (popOrder m l).1 = rs.getLast? ∧ WellFormed (popOrder m l).2 l rs.dropLast := by
  obtain ⟨hl, ht, hnd⟩ := hw
  rcases List.eq_nil_or_concat rs with rfl | ⟨xs, a, rfl⟩
  · rw [popOrder_empty (by simpa using ht)]
    exact ⟨rfl, hl, ht, hnd⟩
  · simp only [List.concat_eq_append] at hl ht hnd ⊢
    have hta : (m.limits l).tailOrder = some a := by simpa using ht
    rw [List.dropLast_concat]
    rcases List.eq_nil_or_concat xs with rfl | ⟨ys, b, rfl⟩
    · have hp : (m.orders a).prevOrder = none := hl.2.1
      obtain ⟨h1, -, -, hh, htl, -⟩ := popOrder_single hta hp
      exact ⟨by simp [h1], by simp [OrderList, hh], by simp [htl], List.nodup_nil⟩
    · simp only [List.concat_eq_append] at hl ht hnd ⊢
      have hl' : OrderList m.orders none (m.limits l).headOrder (ys ++ [b, a]) := by
        simpa using hl
      have hp : (m.orders a).prevOrder = some b := hl'.prev_last
      obtain ⟨h1, ho, -, hh, htl, -⟩ := popOrder_several hta hp
      have hnd' : (ys ++ [b]).Nodup := (List.nodup_append.mp hnd).1
      have hb : b ∉ ys := by
        have := List.nodup_append.mp hnd'
        intro hm
        exact this.2.2 hm (by simp)
      refine ⟨by simp [h1], ?_, by simp [htl], hnd'⟩
      rw [ho, hh]
      exact hl'.drop_last hb

@[simp] theorem Dbl.toInt_fin (v : Int) : (Dbl.fin v).toInt = v := rfl

@[simp] theorem Dbl.add_fin_fin (a b : Int) : Dbl.add (.fin a) (.fin b) = .fin (a + b) := rfl

@[simp] theorem Dbl.sub_fin_fin (a b : Int) : Dbl.sub (.fin a) (.fin b) = .fin (a - b) := by
  simp [Dbl.sub, Dbl.neg, sub_eq_add_neg]

@[simp] theorem Dbl.mul_fin_fin (a b : Int) : Dbl.mul (.fin a) (.fin b) = .fin (a * b) := rfl

theorem sharesTotal_congr {m m' : Mem} (hs : ∀ a, (m'.orders a).shares = (m.orders a).shares)
    (rs : List Nat) : sharesTotal m' rs = sharesTotal m rs := by
  unfold sharesTotal
  congr 1
  exact List.map_congr_left (fun a _ => by rw [hs a])

theorem applyOp_static (l : Nat) (m : Mem) (op : OrderOp) :
    (∀ a, ((applyOp l m op).orders a).shares = (m.orders a).shares ∧
      ((applyOp l m op).orders a).limit = (m.orders a).limit) ∧
    ((applyOp l m op).limits l).limitPrice = (m.limits l).limitPrice := by
  cases op with
  | push o =>
    simp only [applyOp]
    cases hq : Dbl.ne (m.limits l).limitPrice (m.orders o).limit with
    | true => rw [pushOrder_reject hq]; simp
    | false => exact ⟨(pushOrder_orders hq).1, (pushOrder_limit hq).2.1⟩
  | pop =>
    simp only [applyOp]
    refine ⟨popOrder_orders m l, ?_⟩
    cases ht : (m.limits l).tailOrder with
    | none => rw [popOrder_empty ht]
    | some a =>
      cases hp : (m.orders a).prevOrder with
      | none => exact (popOrder_single ht hp).2.2.1
      | some b => exact (popOrder_several ht hp).2.2.1

theorem runOps_static (l : Nat) (ops : List OrderOp) :
    ∀ (m : Mem), (∀ a, ((runOps l m ops).orders a).shares = (m.orders a).shares ∧
      ((runOps l m ops).orders a).limit = (m.orders a).limit) ∧
    ((runOps l m ops).limits l).limitPrice = (m.limits l).limitPrice := by
  induction ops with
  | nil => intro m; simp [runOps]
  | cons op rest ih =>
    intro m
    have h1 := applyOp_static l m op
    have h2 := ih (applyOp l m op)
    simp only [runOps, List.foldl_cons] at h2 ⊢
    exact ⟨fun a => ⟨(h2.1 a).1.trans (h1.1 a).1, (h2.1 a).2.trans (h1.1 a).2⟩,
      h2.2.trans h1.2⟩

theorem Inv.push {G : Prop} {P : List Nat} {l : Nat} {p : Int} {m : Mem} {rs : List Nat}
    {o : Nat} (hinv : Inv G P l p m rs) (hoP : o ∈ P) (ho : o ∉ rs)
    (hlater : ∀ b ∈ rs, P.indexOf b < P.indexOf o)
    (hacc : Dbl.ne (m.limits l).limitPrice (m.orders o).limit = false) :
    Inv G P l p (pushOrder m l o).2 (o :: rs) := by
  obtain ⟨hw, hpw, hagg⟩ := hinv
  refine ⟨pushOrder_wf hw ho hacc, List.pairwise_cons.mpr ⟨hlater, hpw⟩, ?_⟩
  intro hG hprice hfin
  obtain ⟨-, hlp, -, -, hcount, hsize, hvol⟩ := pushOrder_limit hacc
  have hst := (pushOrder_orders hacc).1
  rw [hlp] at hprice
  have hfin0 : ∀ a ∈ P, ∃ s, (m.orders a).shares = .fin s := by
    intro a ha
    obtain ⟨s, hs⟩ := hfin a ha
    exact ⟨s, by rw [← (hst a).1]; exact hs⟩
  obtain ⟨h1, h2, h3⟩ := hagg hG hprice hfin0
  obtain ⟨s, hs⟩ := hfin0 o hoP
  have htot : sharesTotal (pushOrder m l o).2 (o :: rs) = s + sharesTotal m rs := by
    rw [sharesTotal_congr (fun a => (hst a).1)]
    simp [sharesTotal, hs]
  refine ⟨?_, ?_, ?_⟩
  · rw [hsize, h1, hs, htot]; simp [add_comm]
  · rw [hcount, h2]; simp
  · rw [hvol, h3, hs, hprice, htot]; simp; ring

theorem Inv.pop {G : Prop} {P : List Nat} {l : Nat} {p : Int} {m : Mem} {rs : List Nat}
    (hinv : Inv G P l p m rs) (hsub : ∀ a ∈ rs, a ∈ P) :
    Inv G P l p (popOrder m l).2 rs.dropLast := by
  obtain ⟨hw, hpw, hagg⟩ := hinv
  refine ⟨(popOrder_wf hw).2, hpw.sublist (List.dropLast_sublist rs), ?_⟩
  intro hG hprice hfin
  have hst := popOrder_orders m l
  have hfin0 : ∀ a ∈ P, ∃ s, (m.orders a).shares = .fin s := by
    intro a ha
    obtain ⟨s, hs⟩ := hfin a ha
    exact ⟨s, by rw [← (hst a).1]; exact hs⟩
  obtain ⟨hl, ht, hnd⟩ := hw
  rcases List.eq_nil_or_concat rs with rfl | ⟨xs, a, rfl⟩
  · have hte : (m.limits l).tailOrder = none := by simpa using ht
    rw [popOrder_empty hte] at hprice ⊢
    exact hagg hG hprice hfin0
  · simp only [List.concat_eq_append] at hl ht hnd hsub hagg ⊢
    have hta : (m.limits l).tailOrder = some a := by simpa using ht
    rw [List.dropLast_concat]
    rcases List.eq_nil_or_concat xs with rfl | ⟨ys, b, rfl⟩
    · have hp : (m.orders a).prevOrder = none := hl.2.1
      obtain ⟨-, -, -, -, -, hc, hsz, hv⟩ := popOrder_single hta hp
      exact ⟨by rw [hsz]; simp [sharesTotal], by rw [hc]; simp,
        by rw [hv]; simp [sharesTotal]⟩
    · simp only [List.concat_eq_append] at hl ht hnd hsub hagg ⊢
      have hl' : OrderList m.orders none (m.limits l).headOrder (ys ++ [b, a]) := by
        simpa using hl
      have hp : (m.orders a).prevOrder = some b := hl'.prev_last
      obtain ⟨-, -, hlp, -, -, hc, hsz, hv⟩ := popOrder_several hta hp
      rw [hlp] at hprice
      obtain ⟨h1, h2, h3⟩ := hagg hG hprice hfin0
      obtain ⟨s, hs⟩ := hfin0 a (hsub a (by simp))
      have htot : sharesTotal m (ys ++ [b] ++ [a]) = sharesTotal m (ys ++ [b]) + s := by
        simp [sharesTotal, hs, add_assoc]
      rw [htot] at h1 h3
      unfold AggFin
      rw [sharesTotal_congr (fun c => (hst c).1)]
      refine ⟨?_, ?_, ?_⟩
      · rw [hsz, h1, hs]; simp
      · rw [hc, h2]; simp only [List.length_append, List.length_cons, List.length_nil]
        push_cast; ring
      · rw [hv, h3, hs, hprice]; simp; ring

theorem runOps_inv (G : Prop) (P : List Nat) (hP : P.Nodup) (l : Nat) (p : Int) :
    ∀ (ops : List OrderOp) (done : List Nat) (m : Mem) (rs : List Nat),
      P = done ++ pushed ops → (∀ a ∈ rs, a ∈ done) → Inv G P l p m rs →
      ∃ rs', Inv G P l p (runOps l m ops) rs' ∧ ∀ a ∈ rs', a ∈ P := by
  intro ops
  induction ops with
  | nil =>
    intro done m rs hPd hsub hinv
    exact ⟨rs, hinv, fun a ha => by rw [hPd]; simp [hsub a ha]⟩
  | cons op rest ih =>
    intro done m rs hPd hsub hinv
    cases op with
    | push o =>
      simp only [pushed] at hPd
      have hPd' : P = (done ++ [o]) ++ pushed rest := by simpa using hPd
      have hod : o ∉ done := by
        rw [hPd] at hP
        have := (List.nodup_append.mp hP).2.2
        intro hm
        exact this hm (by simp)
      simp only [runOps, List.foldl_cons, applyOp]
      cases hq : Dbl.ne (m.limits l).limitPrice (m.orders o).limit with
      | true =>
        rw [pushOrder_reject hq]
        exact ih (done ++ [o]) m rs hPd' (fun a ha => by simp [hsub a ha]) hinv
      | false =>
        have hidx : P.indexOf o = done.length := by
          rw [hPd, List.indexOf_append_of_not_mem hod]; simp
        refine ih (done ++ [o]) _ (o :: rs) hPd' ?_
          (hinv.push (by rw [hPd]; simp) (fun hm => hod (hsub o hm)) ?_ hq)
        · intro a ha
          rcases List.mem_cons.mp ha with rfl | ha
          · simp
          · simp [hsub a ha]
        · intro b hb
          rw [hidx, hPd, List.indexOf_append_of_mem (hsub b hb)]
          exact List.indexOf_lt_length.mpr (hsub b hb)
    | pop =>
      simp only [pushed] at hPd
      simp only [runOps, List.foldl_cons, applyOp]
      have hsubP : ∀ a ∈ rs, a ∈ P := fun a ha => by rw [hPd]; simp [hsub a ha]
      exact ih done _ rs.dropLast hPd
        (fun a ha => hsub a (List.mem_of_mem_dropLast ha)) (hinv.pop hsubP)

theorem pushed_take_sublist (ops : List OrderOp) :
    ∀ n, (pushed (ops.take n)).Sublist (pushed ops) := by
  induction ops with
  | nil => intro n; simp [pushed]
  | cons op rest ih =>
    intro n
    cases n with
    | zero => simp [pushed]
    | succ k =>
      cases op with
      | push o => simpa [pushed] using ih k
      | pop => simpa [pushed] using ih k

theorem Dbl.sum_fin {α : Type} (f : α → Dbl) (rs : List α)
    (hfin : ∀ a ∈ rs, ∃ s, f a = .fin s) :
    Dbl.sum (rs.map f) = .fin ((rs.map (fun a => (f a).toInt)).sum) := by
  induction rs with
  | nil => rfl
  | cons a rest ih =>
    obtain ⟨s, hs⟩ := hfin a (by simp)
    simp only [List.map_cons, Dbl.sum, List.sum_cons]
    rw [ih (fun b hb => hfin b (by simp [hb])), hs]
    simp

theorem Inv.empty (G : Prop) (P : List Nat) (l : Nat) (p : Int) (m : Mem)
    (hhead : (m.limits l).headOrder = none) (htail : (m.limits l).tailOrder = none)
    (hagg : G → (m.limits l).size = .fin 0 ∧ (m.limits l).orderCount = 0 ∧
      (m.limits l).totalVolume = .fin 0) :
    Inv G P l p m [] := by
  refine ⟨⟨hhead, by simpa using htail, List.nodup_nil⟩, List.Pairwise.nil, ?_⟩
  intro hG _ _
  obtain ⟨h1, h2, h3⟩ := hagg hG
  exact ⟨by rw [h1]; simp [sharesTotal], by rw [h2]; simp, by rw [h3]; simp [sharesTotal]⟩

theorem OrderList.last_next {o : OrderHeap} {b : Nat} {xs : List Nat} :
    ∀ {prev p : Option Nat}, OrderList o prev p (xs ++ [b]) → (o b).nextOrder = none := by
  induction xs with
  | nil => intro prev p hl; exact hl.2.2
  | cons x xs ih => intro prev p hl; exact ih hl.2.2

theorem pushAll_wf (l : Nat) :
    ∀ (os : List Nat) (m : Mem) (rs : List Nat), WellFormed m l rs → (∀ o ∈ os, o ∉ rs) →
      os.Nodup → (∀ o ∈ os, Dbl.ne (m.limits l).limitPrice (m.orders o).limit = false) →
      WellFormed (pushAll l m os) l (os.reverse ++ rs) := by
  intro os
  induction os with
  | nil => intro m rs hw _ _ _; simpa [pushAll] using hw
  | cons o rest ih =>
    intro m rs hw hnew hnd hacc
    have hq := hacc o (by simp)
    have hnd' := List.nodup_cons.mp hnd
    have hw1 := pushOrder_wf hw (hnew o (by simp)) hq
    have hres := ih (pushOrder m l o).2 (o :: rs) hw1
      (by
        intro x hx hm
        rcases List.mem_cons.mp hm with rfl | hm
        · exact hnd'.1 hx
        · exact hnew x (by simp [hx]) hm)
      hnd'.2
      (by
        intro x hx
        rw [(pushOrder_limit hq).2.1, ((pushOrder_orders hq).1 x).2]
        exact hacc x (by simp [hx]))
    simpa [pushAll] using hres

theorem popN_wf (l : Nat) :
    ∀ (n : Nat) (m : Mem) (rs : List Nat), WellFormed m l rs → rs.length = n →
      (popN l n m).1 = rs.reverse.map some := by
  intro n
  induction n with
  | zero =>
    intro m rs _ hlen
    have : rs = [] := List.length_eq_zero.mp hlen
    subst this
    rfl
  | succ k ih =>
    intro m rs hw hlen
    rcases List.eq_nil_or_concat rs with rfl | ⟨xs, a, rfl⟩
    · simp at hlen
    · simp only [List.concat_eq_append] at hw hlen ⊢
      obtain ⟨h1, h2⟩ := popOrder_wf hw
      rw [List.dropLast_concat] at h2
      have hlen' : xs.length = k := by simpa using hlen
      have := ih (popOrder m l).2 xs h2 hlen'
      simp [popN, h1, this]

/-! ## Claims on the order list -/

/-- C5: from a Limit with an empty list and zero aggregates (as after
`initLimit`, at any finite price), after each call of a sequence of
`pushOrder` (orders pairwise distinct, shares finite) and `popOrder` calls the
list is well-formed, `size` is the sum of the shares of the resident orders,
`orderCount` is their number and `totalVolume` is `size * limitPrice`; all
three are zero when the list is empty. -/
theorem aggregates_consistent (m : Mem) (l : Nat) (p : Int) (ops : List OrderOp)
    (hprice : (m.limits l).limitPrice = .fin p)
    (hhead : (m.limits l).headOrder = none) (htail : (m.limits l).tailOrder = none)
    (hsize : (m.limits l).size = .fin 0) (hcount : (m.limits l).orderCount = 0)
    (hvol : (m.limits l).totalVolume = .fin 0)
    (hdist : (pushed ops).Nodup)
    (hfin : ∀ a ∈ pushed ops, ∃ s, (m.orders a).shares = .fin s) (n : Nat) :
    ∃ rs, WellFormed (runOps l m (ops.take n)) l rs ∧
      ((runOps l m (ops.take n)).limits l).size
        = Dbl.sum (rs.map (fun a => ((runOps l m (ops.take n)).orders a).shares)) ∧
      ((runOps l m (ops.take n)).limits l).orderCount = rs.length ∧
      ((runOps l m (ops.take n)).limits l).totalVolume
        = Dbl.mul ((runOps l m (ops.take n)).limits l).size
            ((runOps l m (ops.take n)).limits l).limitPrice ∧
      (rs = [] → ((runOps l m (ops.take n)).limits l).size = .fin 0 ∧
        ((runOps l m (ops.take n)).limits l).orderCount = 0 ∧
        ((runOps l m (ops.take n)).limits l).totalVolume = .fin 0) := by
  have hsub := pushed_take_sublist ops n
  obtain ⟨rs, ⟨hw, -, hagg⟩, hin⟩ := runOps_inv True (pushed (ops.take n))
    (hdist.sublist hsub) l p (ops.take n) [] m [] (by simp) (by simp)
    (Inv.empty True _ l p m hhead htail (fun _ => ⟨hsize, hcount, hvol⟩))
  obtain ⟨hst, hlp⟩ := runOps_static l (ops.take n) m
  have hfin' : ∀ a ∈ pushed (ops.take n),
      ∃ s, ((runOps l m (ops.take n)).orders a).shares = .fin s := by
    intro a ha
    obtain ⟨s, hs⟩ := hfin a (hsub.subset ha)
    exact ⟨s, by rw [(hst a).1]; exact hs⟩
  obtain ⟨h1, h2, h3⟩ := hagg trivial (by rw [hlp]; exact hprice) hfin'
  have hsum := Dbl.sum_fin (fun a => ((runOps l m (ops.take n)).orders a).shares) rs
    (fun a ha => hfin' a (hin a ha))
  refine ⟨rs, hw, ?_, h2, ?_, ?_⟩
  · rw [h1, hsum]; rfl
  · rw [h3, h1, hlp, hprice]; rfl
  · rintro rfl
    exact ⟨by rw [h1]; simp [sharesTotal], by rw [h2]; simp, by rw [h3]; simp [sharesTotal]⟩

theorem aggregates_consistent_witness :
    ∃ rs, WellFormed (runOps 0 bookMem
        ([.push 1, .push 2, .pop, .push 3, .pop, .pop].take 4)) 0 rs ∧
      ((runOps 0 bookMem ([.push 1, .push 2, .pop, .push 3, .pop, .pop].take 4)).limits 0).size
        = Dbl.sum (rs.map (fun a => ((runOps 0 bookMem
            ([.push 1, .push 2, .pop, .push 3, .pop, .pop].take 4)).orders a).shares)) ∧
      ((runOps 0 bookMem
        ([.push 1, .push 2, .pop, .push 3, .pop, .pop].take 4)).limits 0).orderCount
          = rs.length ∧
      ((runOps 0 bookMem
        ([.push 1, .push 2, .pop, .push 3, .pop, .pop].take 4)).limits 0).totalVolume
        = Dbl.mul ((runOps 0 bookMem
            ([.push 1, .push 2, .pop, .push 3, .pop, .pop].take 4)).limits 0).size
            ((runOps 0 bookMem
              ([.push 1, .push 2, .pop, .push 3, .pop, .pop].take 4)).limits 0).limitPrice ∧
      (rs = [] → ((runOps 0 bookMem
          ([.push 1, .push 2, .pop, .push 3, .pop, .pop].take 4)).limits 0).size = .fin 0 ∧
        ((runOps 0 bookMem
          ([.push 1, .push 2, .pop, .push 3, .pop, .pop].take 4)).limits 0).orderCount = 0 ∧
        ((runOps 0 bookMem
          ([.push 1, .push 2, .pop, .push 3, .pop, .pop].take 4)).limits 0).totalVolume
            = .fin 0) :=
  aggregates_consistent bookMem 0 5 [.push 1, .push 2, .pop, .push 3, .pop, .pop]
    rfl rfl rfl rfl rfl rfl (by decide) (fun a _ => ⟨a, rfl⟩) 4

/-- C6: for a Limit whose list was built from empty by `pushOrder` calls
(pairwise distinct orders; `popOrder` calls may come in between), `popOrder`
returns the tail of the list, which is the earliest-pushed order still
resident; afterwards the list is the former list without that entry, in the
same order, and the new tail's `nextOrder` is `NULL`.  On an empty list it
returns `NULL` and the memory is unchanged. -/
theorem popOrder_fifo (m : Mem) (l : Nat) (ops : List OrderOp)
    (hhead : (m.limits l).headOrder = none) (htail : (m.limits l).tailOrder = none)
    (hdist : (pushed ops).Nodup) :
    ∃ rs, WellFormed (runOps l m ops) l rs ∧
      (popOrder (runOps l m ops) l).1 = rs.getLast? ∧
      (∀ o ∈ rs.getLast?, ∀ b ∈ rs.dropLast,
        (pushed ops).indexOf o < (pushed ops).indexOf b) ∧
      WellFormed (popOrder (runOps l m ops) l).2 l rs.dropLast ∧
      (∀ b ∈ rs.dropLast.getLast?,
        ((popOrder (runOps l m ops) l).2.orders b).nextOrder = none) ∧
      (rs = [] → popOrder (runOps l m ops) l = (none, runOps l m ops)) := by
  obtain ⟨rs, ⟨hw, hpw, -⟩, -⟩ := runOps_inv False (pushed ops) hdist l 0 ops [] m []
    (by simp) (by simp) (Inv.empty False _ l 0 m hhead htail (fun hF => hF.elim))
  obtain ⟨h1, h2⟩ := popOrder_wf hw
  refine ⟨rs, hw, h1, ?_, h2, ?_, ?_⟩
  · intro o ho b hb
    rcases List.eq_nil_or_concat rs with rfl | ⟨xs, a, rfl⟩
    · simp at ho
    · simp only [List.concat_eq_append] at ho hb hpw
      rw [List.dropLast_concat] at hb
      have hoa : o = a := by simpa using ho.symm
      subst hoa
      exact (List.pairwise_append.mp hpw).2.2 b hb o (by simp)
  · intro b hb
    rcases List.eq_nil_or_concat rs.dropLast with hnil | ⟨ys, c, hys⟩
    · rw [hnil] at hb; simp at hb
    · simp only [List.concat_eq_append] at hys
      rw [hys] at hb h2
      have hbc : b = c := by simpa using hb.symm
      subst hbc
      exact h2.1.last_next
  · rintro rfl
    exact popOrder_empty (by simpa using hw.2.1)

theorem popOrder_fifo_witness :
    ∃ rs, WellFormed (runOps 0 bookMem [.push 1, .push 2, .pop, .push 3]) 0 rs ∧
      (popOrder (runOps 0 bookMem [.push 1, .push 2, .pop, .push 3]) 0).1 = rs.getLast? ∧
      (∀ o ∈ rs.getLast?, ∀ b ∈ rs.dropLast,
        (pushed [.push 1, .push 2, .pop, .push 3]).indexOf o
          < (pushed [.push 1, .push 2, .pop, .push 3]).indexOf b) ∧
      WellFormed (popOrder (runOps 0 bookMem [.push 1, .push 2, .pop, .push 3]) 0).2 0
        rs.dropLast ∧
      (∀ b ∈ rs.dropLast.getLast?,
        ((popOrder (runOps 0 bookMem [.push 1, .push 2, .pop, .push 3]) 0).2.orders
          b).nextOrder = none) ∧
      (rs = [] → popOrder (runOps 0 bookMem [.push 1, .push 2, .pop, .push 3]) 0
        = (none, runOps 0 bookMem [.push 1, .push 2, .pop, .push 3])) :=
  popOrder_fifo bookMem 0 [.push 1, .push 2, .pop, .push 3] rfl rfl (by decide)

/-- C7, as stated, fails: after `pushOrder` of the orders 1 and 2 (both at the
Limit's price) on an empty Limit, two calls of `popOrder` return 1 and then 2,
not 2 and then 1. -/
theorem pop_after_push_not_reversed :
    (bookMem.limits 0).headOrder = none ∧ (bookMem.limits 0).tailOrder = none ∧
      (∀ o ∈ [1, 2], Dbl.ne (bookMem.limits 0).limitPrice (bookMem.orders o).limit = false) ∧
      (popN 0 2 (pushAll 0 bookMem [1, 2])).1 = [some 1, some 2] ∧
      (popN 0 2 (pushAll 0 bookMem [1, 2])).1 ≠ ([1, 2].reverse).map some := by
  decide

/-- C7, amended: after `pushOrder` of pairwise distinct orders `o1, ..., oN`
(all at the Limit's price) on an empty Limit, `N` calls of `popOrder` return
them in the order of attachment: `o1` first and `oN` last. -/
theorem pop_after_push_in_order (m : Mem) (l : Nat) (os : List Nat)
    (hhead : (m.limits l).headOrder = none) (htail : (m.limits l).tailOrder = none)
    (hd : os.Nodup)
    (hprice : ∀ o ∈ os, Dbl.ne (m.limits l).limitPrice (m.orders o).limit = false) :
    (popN l os.length (pushAll l m os)).1 = os.map some := by
  have hw0 : WellFormed m l [] := ⟨hhead, by simpa using htail, List.nodup_nil⟩
  have hw := pushAll_wf l os m [] hw0 (by simp) hd hprice
  have := popN_wf l os.length (pushAll l m os) (os.reverse ++ []) hw (by simp)
  simpa using this

theorem pop_after_push_in_order_witness :
    (popN 0 [1, 2, 3].length (pushAll 0 bookMem [1, 2, 3])).1 = [1, 2, 3].map some :=
  pop_after_push_in_order bookMem 0 [1, 2, 3] rfl rfl (by decide) (by decide)

/-- C8: `pushOrder` returns 0 and leaves the whole memory (the Limit, the
order, every other record) unchanged when the order's `limit` differs from the
Limit's `limitPrice` (C `!=`), and returns 1 when it does not differ. -/
theorem pushOrder_price_guard (m : Mem) (l o : Nat) :
    (Dbl.ne (m.limits l).limitPrice (m.orders o).limit = true → pushOrder m l o = (0, m)) ∧
      (Dbl.ne (m.limits l).limitPrice (m.orders o).limit = false → (pushOrder m l o).1 = 1) :=
  ⟨pushOrder_reject, fun hacc => (pushOrder_limit hacc).1⟩

theorem pushOrder_price_guard_witness :
    pushOrder bookMem 0 10 = (0, bookMem) ∧ (pushOrder bookMem 0 1).1 = 1 :=
  ⟨(pushOrder_price_guard bookMem 0 10).1 (by decide),
    (pushOrder_price_guard bookMem 0 1).2 (by decide)⟩

theorem limitIsRoot_eq_zero {h : LimitHeap} {b : Nat} :
    limitIsRoot h b = 0 ↔ (h b).parent ≠ none := by
  unfold limitIsRoot
  split_ifs with hp <;> simp [hp]

theorem replace_left_slot {h : LimitHeap} {a b : Nat} (nl : Option Nat)
    (hpa : (h a).parent = some b) (hslot : (h b).leftChild = some a)
    (hb : (h b).parent ≠ none) (hab : a ≠ b) :
    replaceLimitInParent h a nl =
      match nl with
      | some c =>
        Function.update (Function.update h b { h b with leftChild := nl }) c
          { (Function.update h b { h b with leftChild := nl }) c with parent := some b }
      | none => Function.update h b { h b with leftChild := nl } := by
  unfold replaceLimitInParent
  simp only [hpa, hslot, limitIsRoot_eq_zero.mpr hb, and_self, if_true]
  cases nl with
  | none => rfl
  | some c => simp [Function.update, hab, hpa]

theorem replace_right_slot {h : LimitHeap} {a b : Nat} (nl : Option Nat)
    (hpa : (h a).parent = some b) (hslot : (h b).leftChild ≠ some a) (hab : a ≠ b) :
    replaceLimitInParent h a nl =
      match nl with
      | some c =>
        Function.update (Function.update h b { h b with rightChild := nl }) c
          { (Function.update h b { h b with rightChild := nl }) c with parent := some b }
      | none => Function.update h b { h b with rightChild := nl } := by
  unfold replaceLimitInParent
  simp only [hpa, hslot, false_and, if_false]
  cases nl with
  | none => rfl
  | some c => simp [Function.update, hab, hpa]

theorem Shape.hoist {h h' : LimitHeap} {s : Tree} {a b : Nat} {q : Option Nat}
    (hs : Shape h (some a) q s) (hbst : s.BST)
    (hroot : ∀ c, q = some c → h' c = { h c with parent := some b })
    (hrest : ∀ c ∈ s.addrs, q ≠ some c → h' c = h c) :
    Shape h' (some b) q s := by
  cases s with
  | nil => exact hs
  | node l2 c kc r2 =>
    have hdis := hs.node_disjoint hbst
    obtain ⟨hq, hk, -, hl, hr⟩ := hs
    have hc := hroot c hq
    refine ⟨hq, by rw [hc]; exact hk, by rw [hc], ?_, ?_⟩
    · rw [hc]
      apply hl.frame
      intro d hd
      apply hrest d (by simp [Tree.addrs, hd])
      rw [hq]
      simp only [ne_eq, Option.some.injEq]
      rintro rfl
      exact hdis.1 hd
    · rw [hc]
      apply hr.frame
      intro d hd
      apply hrest d (by simp [Tree.addrs, hd])
      rw [hq]
      simp only [ne_eq, Option.some.injEq]
      rintro rfl
      exact hdis.2.1 hd

theorem Tree.cut_of_not_mem {a : Nat} {t : Tree} (ha : a ∉ t.addrs) : t.cut a = t := by
  induction t with
  | nil => rfl
  | node l b k r ihl ihr =>
    simp only [Tree.addrs, List.mem_append, List.mem_cons, not_or] at ha
    simp [Tree.cut, Ne.symm ha.2.1, ihl ha.1, ihr ha.2.2]

theorem Tree.mem_keys_cut {a : Nat} {t : Tree} {x : Int} (hx : x ∈ (t.cut a).keys) :
    x ∈ t.keys := by
  induction t with
  | nil => exact hx
  | node l b k r ihl ihr =>
    simp only [Tree.cut] at hx
    split_ifs at hx with hb
    · simp [Tree.keys, hx]
    · simp only [Tree.keys, List.mem_append, List.mem_cons] at hx ⊢
      rcases hx with hx | hx | hx
      · exact Or.inl (ihl hx)
      · exact Or.inr (Or.inl hx)
      · exact Or.inr (Or.inr (ihr hx))

theorem Tree.mem_addrs_cut {a : Nat} {t : Tree} {x : Nat} (hx : x ∈ (t.cut a).addrs) :
    x ∈ t.addrs := by
  induction t with
  | nil => exact hx
  | node l b k r ihl ihr =>
    simp only [Tree.cut] at hx
    split_ifs at hx with hb
    · simp [Tree.addrs, hx]
    · simp only [Tree.addrs, List.mem_append, List.mem_cons] at hx ⊢
      rcases hx with hx | hx | hx
      · exact Or.inl (ihl hx)
      · exact Or.inr (Or.inl hx)
      · exact Or.inr (Or.inr (ihr hx))

theorem Tree.BST_cut {a : Nat} {t : Tree} (hb : t.BST) : (t.cut a).BST := by
  induction t with
  | nil => exact hb
  | node l b k r ihl ihr =>
    obtain ⟨hlt, hgt, hbl, hbr⟩ := hb
    simp only [Tree.cut]
    split_ifs with hba
    · exact hbl
    · exact ⟨fun x hx => hlt x (Tree.mem_keys_cut hx), fun x hx => hgt x (Tree.mem_keys_cut hx),
        ihl hbl, ihr hbr⟩

theorem Tree.levels_cut_le (a : Nat) (t : Tree) : (t.cut a).levels ≤ t.levels := by
  induction t with
  | nil => exact le_refl _
  | node l b k r ihl ihr =>
    simp only [Tree.cut]
    split_ifs with hba
    · simp only [Tree.levels]; omega
    · simp only [Tree.levels]; omega

theorem splice_props {h h' : LimitHeap} {a b : Nat} {nl : Option Nat} {la : Tree} (B : Limit)
    (hform : h' = match nl with
      | some c => Function.update (Function.update h b B) c
          { (Function.update h b B) c with parent := some b }
      | none => Function.update h b B)
    (hs : Shape h (some a) nl la) (hbst : la.BST) (hb : b ∉ la.addrs) :
    h' b = B ∧ Shape h' (some b) nl la ∧
      (∀ c, c ≠ b → c ∉ la.addrs → h' c = h c) := by
  cases nl with
  | none =>
    have hnil : la = .nil := hs.ptr_none_iff.mp rfl
    subst hnil
    simp only at hform
    subst hform
    exact ⟨by simp, rfl, fun c hc _ => by simp [Function.update, hc]⟩
  | some c =>
    simp only at hform
    have hcb : c ≠ b := by
      rintro rfl
      cases la with
      | nil => simp [Shape] at hs
      | node l2 d kd r2 =>
        obtain rfl : c = d := by simpa using hs.1
        exact hb (by simp [Tree.addrs])
    have hcin : c ∈ la.addrs := by
      cases la with
      | nil => simp [Shape] at hs
      | node l2 d kd r2 =>
        obtain rfl : c = d := by simpa using hs.1
        simp [Tree.addrs]
    refine ⟨by rw [hform]; simp [Function.update, Ne.symm hcb], ?_, ?_⟩
    · apply hs.hoist hbst
      · intro d hd
        obtain rfl : c = d := by simpa using hd
        rw [hform]
        simp [Function.update, hcb]
      · intro d hd hne
        have hdc : d ≠ c := fun e => hne (by rw [e])
        have hdb : d ≠ b := fun e => hb (e ▸ hd)
        rw [hform]
        simp [Function.update, hdc, hdb]
    · intro d hdb hd
      have hdc : d ≠ c := fun e => hd (e ▸ hcin)
      rw [hform]
      simp [Function.update, hdc, hdb]

theorem cut_shape {h : LimitHeap} {a : Nat} (hra : (h a).rightChild = none) {t : Tree} :
    ∀ {par : Option Nat} {b : Nat}, Shape h par (some b) t → t.BST → par ≠ none →
      a ∈ t.addrs → a ≠ b →
      Shape (replaceLimitInParent h a (h a).leftChild) par (some b) (t.cut a) ∧
        ∀ c, c ∉ t.addrs → replaceLimitInParent h a (h a).leftChild c = h c := by
  induction t with
  | nil => intro par b hs; simp [Shape] at hs
  | node l x k r ihl ihr =>
    intro par b hs hbst hpar ha hab
    have hdis := hs.node_disjoint hbst
    obtain ⟨hp, hk, hparb, hl, hr⟩ := hs
    obtain rfl : b = x := by simpa using hp
    obtain ⟨hlt, hgt, hbl, hbr⟩ := hbst
    have hbpar : (h b).parent ≠ none := by rw [hparb]; exact hpar
    simp only [Tree.addrs, List.mem_append, List.mem_cons] at ha
    simp only [Tree.cut, if_neg (Ne.symm hab)]
    rcases ha with hal | hab' | har
    · -- `a` lies in the left subtree
      have har : a ∉ r.addrs := hdis.2.2 a hal
      rw [Tree.cut_of_not_mem har]
      cases l with
      | nil => simp [Tree.addrs] at hal
      | node la y ky ra =>
        have hdl := hl.node_disjoint hbl
        obtain ⟨hly, hky, hpy, hla, hrra⟩ := id hl
        by_cases hya : y = a
        · subst hya
          rw [hra] at hrra
          have hranil : ra = .nil := hrra.ptr_none_iff.mp rfl
          subst hranil
          have hbla : b ∉ la.addrs := fun hm => hdis.1 (by simp [Tree.addrs, hm])
          obtain ⟨hB, hS, hF⟩ := splice_props _
            (replace_left_slot (h y).leftChild hpy hly hbpar hab) hla hbl.2.2.1 hbla
          simp only [Tree.cut, if_true]
          refine ⟨⟨rfl, by rw [hB]; exact hk, by rw [hB]; exact hparb, by rw [hB]; exact hS, ?_⟩,
            ?_⟩
          · rw [hB]
            apply hr.frame
            intro c hc
            apply hF c (fun e => hdis.2.1 (e ▸ hc))
            intro hm
            exact hdis.2.2 c (by simp [Tree.addrs, hm]) hc
          · intro c hc
            simp only [Tree.addrs, List.mem_append, List.mem_cons, not_or] at hc
            exact hF c hc.2.1 (fun hm => hc.1.1 hm)
        · have hl' : Shape h (some b) (some y) (.node la y ky ra) := by rw [← hly]; exact hl
          obtain ⟨hS, hF⟩ := ihl hl' hbl (by simp) hal (Ne.symm hya)
          have hbb := hF b hdis.1
          refine ⟨⟨rfl, by rw [hbb]; exact hk, by rw [hbb]; exact hparb, ?_, ?_⟩, ?_⟩
          · rw [hbb, hly]; exact hS
          · rw [hbb]
            apply hr.frame
            intro c hc
            exact hF c (fun hm => hdis.2.2 c hm hc)
          · intro c hc
            simp only [Tree.addrs, List.mem_append, List.mem_cons, not_or] at hc
            exact hF c (by simpa [Tree.addrs] using hc.1)
    · exact absurd hab' hab
    · -- `a` lies in the right subtree
      have hal : a ∉ l.addrs := fun hm => hdis.2.2 a hm har
      rw [Tree.cut_of_not_mem hal]
      cases r with
      | nil => simp [Tree.addrs] at har
      | node la y ky ra =>
        have hdr := hr.node_disjoint hbr
        obtain ⟨hry, hky, hpy, hla, hrra⟩ := id hr
        by_cases hya : y = a
        · subst hya
          rw [hra] at hrra
          have hranil : ra = .nil := hrra.ptr_none_iff.mp rfl
          subst hranil
          have hbla : b ∉ la.addrs := fun hm => hdis.2.1 (by simp [Tree.addrs, hm])
          have hslot : (h b).leftChild ≠ some y := by
            intro hc
            rw [hc] at hl
            cases l with
            | nil => simp [Shape] at hl
            | node l3 z kz r3 =>
              obtain rfl : y = z := by simpa using hl.1
              exact hal (by simp [Tree.addrs])
          obtain ⟨hB, hS, hF⟩ := splice_props _
            (replace_right_slot (h y).leftChild hpy hslot hab) hla hbr.2.2.1 hbla
          simp only [Tree.cut, if_true]
          refine ⟨⟨rfl, by rw [hB]; exact hk, by rw [hB]; exact hparb, ?_, by rw [hB]; exact hS⟩,
            ?_⟩
          · rw [hB]
            apply hl.frame
            intro c hc
            apply hF c (fun e => hdis.1 (e ▸ hc))
            intro hm
            exact hdis.2.2 c hc (by simp [Tree.addrs, hm])
          · intro c hc
            simp only [Tree.addrs, List.mem_append, List.mem_cons, not_or] at hc
            exact hF c hc.2.1 (fun hm => hc.2.2.1 hm)
        · have hr' : Shape h (some b) (some y) (.node la y ky ra) := by rw [← hry]; exact hr
          obtain ⟨hS, hF⟩ := ihr hr' hbr (by simp) har (Ne.symm hya)
          have hbb := hF b hdis.2.1
          refine ⟨⟨rfl, by rw [hbb]; exact hk, by rw [hbb]; exact hparb, ?_, ?_⟩, ?_⟩
          · rw [hbb]
            apply hl.frame
            intro c hc
            exact hF c (hdis.2.2 c hc)
          · rw [hbb, hry]; exact hS
          · intro c hc
            simp only [Tree.addrs, List.mem_append, List.mem_cons, not_or] at hc
            exact hF c (by simpa [Tree.addrs] using hc.2.2)

theorem Shape.parent_ne_none {h : LimitHeap} {t : Tree} :
    ∀ {par p : Option Nat}, Shape h par p t → par ≠ none → ∀ a ∈ t.addrs,
      (h a).parent ≠ none := by
  induction t with
  | nil => intro par p _ _ a ha; simp [Tree.addrs] at ha
  | node l b k r ihl ihr =>
    intro par p hs hpar a ha
    obtain ⟨-, -, hpb, hl, hr⟩ := hs
    simp only [Tree.addrs, List.mem_append, List.mem_cons] at ha
    rcases ha with ha | rfl | ha
    · exact ihl hl (by simp) a ha
    · rw [hpb]; exact hpar
    · exact ihr hr (by simp) a ha

theorem replaceLimitInParent_price (h : LimitHeap) (a : Nat) (nl : Option Nat) (c : Nat) :
    (replaceLimitInParent h a nl c).limitPrice = (h c).limitPrice := by
  unfold replaceLimitInParent
  have h1 : ∀ d, ((match (h a).parent with
      | some p =>
        if (h p).leftChild = some a ∧ limitIsRoot h p = 0 then
          Function.update h p { h p with leftChild := nl }
        else Function.update h p { h p with rightChild := nl }
      | none => h) d).limitPrice = (h d).limitPrice := by
    intro d
    cases (h a).parent with
    | none => rfl
    | some p =>
      simp only
      split_ifs
      · refine update_limitPrice _ _ _ ?_ d; rfl
      · refine update_limitPrice _ _ _ ?_ d; rfl
  cases nl with
  | none => exact h1 c
  | some n =>
    refine (update_limitPrice _ _ _ ?_ c).trans (h1 c)
    rfl

theorem removeLimit_no_right_run {h : LimitHeap} {a : Nat} (hpa : (h a).parent ≠ none)
    (hra : (h a).rightChild = none) (fuel : Nat) (hf : 1 ≤ fuel) :
    removeLimit fuel h a = .ok (1, replaceLimitInParent h a (h a).leftChild) := by
  obtain ⟨n, rfl⟩ : ∃ n, fuel = n + 1 := ⟨fuel - 1, by omega⟩
  have hroot : limitIsRoot h a = 0 := limitIsRoot_eq_zero.mpr hpa
  rw [removeLimit]
  rw [if_neg (by simp [hroot]), if_neg (by simp [hra])]
  by_cases hl : (h a).leftChild = none
  · rw [if_neg (by simp [hl]), if_neg (by simp [hl]), hl]
  · rw [if_pos ⟨hl, hra⟩]

theorem removeLimit_no_right {h : LimitHeap} {root a : Nat} {t : Tree}
    (hv : ValidTree h root t) (ha : a ∈ t.addrs) (hra : (h a).rightChild = none) :
    ValidTree (replaceLimitInParent h a (h a).leftChild) root (t.cut a) := by
  have hrt := hv.root_not_mem
  obtain ⟨hprice, hpar, hleft, hs, hb⟩ := hv
  have har : a ≠ root := fun e => hrt (e ▸ ha)
  cases t with
  | nil => simp [Tree.addrs] at ha
  | node l b k r =>
    have hdis := hs.node_disjoint hb
    obtain ⟨hrb, hkb, hpb, hl, hr⟩ := id hs
    by_cases hba : b = a
    · subst hba
      rw [hra] at hr
      have hrnil : r = .nil := hr.ptr_none_iff.mp rfl
      subst hrnil
      have hrl : root ∉ l.addrs := fun hm => hrt (by simp [Tree.addrs, hm])
      obtain ⟨hB, hS, hF⟩ := splice_props _
        (replace_right_slot (h b).leftChild hpb (by rw [hleft]; simp) har) hl hb.2.2.1 hrl
      simp only [Tree.cut, if_true]
      exact ⟨by rw [hB]; exact hprice, by rw [hB]; exact hpar, by rw [hB]; exact hleft,
        by rw [hB]; exact hS, hb.2.2.1⟩
    · have hs' : Shape h (some root) (some b) (.node l b k r) := by rw [← hrb]; exact hs
      obtain ⟨hS, hF⟩ := cut_shape hra hs' hb (by simp) ha (Ne.symm hba)
      have hrr := hF root hrt
      exact ⟨by rw [hrr]; exact hprice, by rw [hrr]; exact hpar, by rw [hrr]; exact hleft,
        by rw [hrr, hrb]; exact hS, Tree.BST_cut hb⟩

theorem Shape.keys_cut {h : LimitHeap} {a : Nat} {ka : Int} (hka : (h a).limitPrice = .fin ka)
    (hra : (h a).rightChild = none) {t : Tree} :
    ∀ {par p : Option Nat}, Shape h par p t → t.BST → a ∈ t.addrs →
      (t.cut a).keys = t.keys.erase ka := by
  induction t with
  | nil => intro par p _ _ ha; simp [Tree.addrs] at ha
  | node l b k r ihl ihr =>
    intro par p hs hb ha
    have hdis := hs.node_disjoint hb
    obtain ⟨-, hkb, -, hl, hr⟩ := hs
    obtain ⟨hlt, hgt, hbl, hbr⟩ := hb
    simp only [Tree.addrs, List.mem_append, List.mem_cons] at ha
    have hkey : ∀ {s : Tree} {q q' : Option Nat}, Shape h q q' s → a ∈ s.addrs → ka ∈ s.keys := by
      intro s q q' hss has
      obtain ⟨x, hx, hpx⟩ := hss.price_of_mem a has
      rw [hka] at hpx
      simp only [Dbl.fin.injEq] at hpx
      exact hpx ▸ hx
    by_cases hba : b = a
    · subst hba
      rw [hra] at hr
      have hrnil : r = .nil := hr.ptr_none_iff.mp rfl
      subst hrnil
      have hkk : k = ka := by
        rw [hkb] at hka
        simpa using hka
      subst hkk
      have hnl : k ∉ l.keys := fun hm => lt_irrefl _ (hlt k hm)
      simp [Tree.cut, Tree.keys, List.erase_append_right _ hnl]
    · simp only [Tree.cut, if_neg hba, Tree.keys]
      rcases ha with hal | hab | har
      · have hkl := hkey hl hal
        rw [ihl hl hbl hal, Tree.cut_of_not_mem (hdis.2.2 a hal), List.erase_append_left _ hkl]
      · exact absurd hab.symm hba
      · have hkr := hkey hr har
        have hnl : ka ∉ l.keys := fun hm => by
          have := hlt ka hm
          have := hgt ka hkr
          omega
        have hne : k ≠ ka := fun e => by
          have := hgt ka hkr
          omega
        rw [ihr hr hbr har, Tree.cut_of_not_mem (fun hm => hdis.2.2 a hm har),
          List.erase_append_right _ hnl, List.erase_cons_tail (by simpa using hne)]

/-! ## Claims on removal -/

/-- C9: on a valid sentinel-rooted BST, for a node `a` below the sentinel
with no children, `removeLimit` returns 1; the in-order traversal afterwards
is the traversal before with the price of `a` deleted, it is strictly
increasing, and `limitExists` returns 1 for every remaining price. -/
theorem removeLimit_leaf (h : LimitHeap) (root a : Nat) (t : Tree)
    (hv : ValidTree h root t) (ha : a ∈ t.addrs)
    (hla : (h a).leftChild = none) (hra : (h a).rightChild = none)
    (fuel : Nat) (hf : t.levels + 1 ≤ fuel) :
    ∃ before, removeLimit fuel h a = .ok (1, replaceLimitInParent h a none) ∧
      inorder fuel h (h root).rightChild = .ok before ∧
      inorder fuel (replaceLimitInParent h a none)
          (replaceLimitInParent h a none root).rightChild
        = .ok (before.erase (h a).limitPrice) ∧
      (before.erase (h a).limitPrice).Pairwise (fun x y => Dbl.lt x y = true) ∧
      ∀ target, (replaceLimitInParent h a none target).limitPrice
          ∈ before.erase (h a).limitPrice →
        limitExists fuel (replaceLimitInParent h a none) root target = .ok 1 := by
  have hs := hv.2.2.2.1
  have hb := hv.2.2.2.2
  obtain ⟨ka, -, hka⟩ := hs.price_of_mem a ha
  have hrun := removeLimit_no_right_run (hs.parent_ne_none (by simp) a ha) hra fuel (by omega)
  have hv' := removeLimit_no_right hv ha hra
  have hkeys := Shape.keys_cut hka hra hs hb ha
  rw [hla] at hrun hv'
  have hlev := Tree.levels_cut_le a t
  have herase : (t.keys.map Dbl.fin).erase (.fin ka) = (t.keys.erase ka).map Dbl.fin :=
    (List.map_erase (f := Dbl.fin) (a := ka) (fun x y hxy => by simpa using hxy) t.keys).symm
  refine ⟨t.keys.map Dbl.fin, hrun, inorder_of_shape hs fuel (by omega), ?_, ?_, ?_⟩
  · rw [hka, herase, ← hkeys]
    exact inorder_of_shape hv'.2.2.2.1 fuel (by omega)
  · rw [hka, herase, ← hkeys, List.pairwise_map]
    exact (Tree.BST.sorted_keys hv'.2.2.2.2).imp (fun hxy => by simpa using hxy)
  · intro target htar
    rw [hka, herase, ← hkeys] at htar
    obtain ⟨x, hx, hxt⟩ := List.mem_map.mp htar
    obtain ⟨c, hc, hpc⟩ := hv'.2.2.2.1.key_of_mem x hx
    have hne : t.cut a ≠ .nil := by
      intro hnil
      rw [hnil] at hx
      simp [Tree.keys] at hx
    exact limitExists_of_held hv' hne ⟨c, Or.inr hc, by rw [hpc, ← hxt]; simp⟩ fuel (by omega)

theorem removeLimit_leaf_witness :
    ∃ before, removeLimit 4 (builtHeap [10, 5, 15, 3, 7]) 3
        = .ok (1, replaceLimitInParent (builtHeap [10, 5, 15, 3, 7]) 3 none) ∧
      inorder 4 (builtHeap [10, 5, 15, 3, 7]) (builtHeap [10, 5, 15, 3, 7] 0).rightChild
        = .ok before ∧
      inorder 4 (replaceLimitInParent (builtHeap [10, 5, 15, 3, 7]) 3 none)
          (replaceLimitInParent (builtHeap [10, 5, 15, 3, 7]) 3 none 0).rightChild
        = .ok (before.erase (builtHeap [10, 5, 15, 3, 7] 3).limitPrice) ∧
      (before.erase (builtHeap [10, 5, 15, 3, 7] 3).limitPrice).Pairwise
        (fun x y => Dbl.lt x y = true) ∧
      ∀ target, (replaceLimitInParent (builtHeap [10, 5, 15, 3, 7]) 3 none target).limitPrice
          ∈ before.erase (builtHeap [10, 5, 15, 3, 7] 3).limitPrice →
        limitExists 4 (replaceLimitInParent (builtHeap [10, 5, 15, 3, 7]) 3 none) 0 target
          = .ok 1 :=
  removeLimit_leaf (builtHeap [10, 5, 15, 3, 7]) 0 3 test5Tree (by decide) (by decide)
    (by decide) (by decide) 4 (by decide)

/-- C10, the code at a node with only a right child: in the valid BST built
by inserting 10 and 15, the node 10 has only the right child 15;
`removeLimit` on it returns 1 and leaves the sentinel without any child, so
the in-order traversal is empty instead of holding 15, and 15 still names 10
as its parent. -/
theorem removeLimit_right_only_drops_child :
    ValidTree (builtHeap [10, 15]) 0 (.node .nil 10 10 (.node .nil 15 15 .nil)) ∧
      (builtHeap [10, 15] 10).leftChild = none ∧
      (builtHeap [10, 15] 10).rightChild = some 15 ∧
      removeLimit 3 (builtHeap [10, 15]) 10
        = .ok (1, replaceLimitInParent (builtHeap [10, 15]) 10 none) ∧
      (replaceLimitInParent (builtHeap [10, 15]) 10 none 0).rightChild = none ∧
      inorder 3 (replaceLimitInParent (builtHeap [10, 15]) 10 none)
        (replaceLimitInParent (builtHeap [10, 15]) 10 none 0).rightChild = .ok [] ∧
      (replaceLimitInParent (builtHeap [10, 15]) 10 none 15).parent = some 10 :=
  ⟨by decide, by decide, by decide, rfl, by decide, by decide, by decide⟩

/-! ## Claims on removal, continued -/

/-- C11, the code at a node with two children: in the valid BST built by
inserting 10, 5, 20, 30 the node 10 has the children 5 and 20, and its
in-order successor 20 has the right child 30.  `removeLimit` on 10 returns 1,
but the in-order traversal afterwards is 5, 20: the price 30 is lost with the
successor's right subtree.  In the tree built by inserting 10, 5, 20, 15
(successor 15 below 20) the child links afterwards form a cycle between 15
and 20, so the traversal does not end. -/
theorem removeLimit_two_children_breaks_tree :
    ValidTree (builtHeap [10, 5, 20, 30]) 0
        (.node (.node .nil 5 5 .nil) 10 10 (.node .nil 20 20 (.node .nil 30 30 .nil))) ∧
      (builtHeap [10, 5, 20, 30] 10).leftChild = some 5 ∧
      (builtHeap [10, 5, 20, 30] 10).rightChild = some 20 ∧
      (removeLimit 5 (builtHeap [10, 5, 20, 30]) 10).map Prod.fst = .ok 1 ∧
      inorder 5 (removedHeap [10, 5, 20, 30] 10) (removedHeap [10, 5, 20, 30] 10 0).rightChild
        = .ok [.fin 5, .fin 20] ∧
      ValidTree (builtHeap [10, 5, 20, 15]) 0
        (.node (.node .nil 5 5 .nil) 10 10 (.node (.node .nil 15 15 .nil) 20 20 .nil)) ∧
      (removeLimit 5 (builtHeap [10, 5, 20, 15]) 10).map Prod.fst = .ok 1 ∧
      (removedHeap [10, 5, 20, 15] 10 0).rightChild = some 15 ∧
      (removedHeap [10, 5, 20, 15] 10 15).rightChild = some 20 ∧
      (removedHeap [10, 5, 20, 15] 10 20).leftChild = some 15 := by
  decide

/-- C12: for a limit that has no parent (a root, such as the sentinel of a
tree that holds nothing else), `removeLimit` returns 0 and the memory
afterwards is the memory before. -/
theorem removeLimit_root_refused (h : LimitHeap) (limit : Nat)
    (hroot : (h limit).parent = none) (fuel : Nat) (hf : 1 ≤ fuel) :
    removeLimit fuel h limit = .ok (0, h) := by
  obtain ⟨n, rfl⟩ : ∃ n, fuel = n + 1 := ⟨fuel - 1, by omega⟩
  simp [removeLimit, hasGrandpa, limitIsRoot, hroot]

theorem removeLimit_root_refused_witness :
    removeLimit 1 (createRoot pricedHeap 0) 0 = .ok (0, createRoot pricedHeap 0) :=
  removeLimit_root_refused (createRoot pricedHeap 0) 0 (by decide) 1 (by decide)

/-! ## Height: the breadth-first loop -/

theorem getHeightLevel_eq (h : LimitHeap) :
    ∀ (front acc : List Nat), getHeightLevel front.length h (front ++ acc)
      = .ok (acc ++ front.flatMap (childPtrs h)) := by
  intro front
  induction front with
  | nil => intro acc; simp [getHeightLevel]
  | cons a rest ih =>
    intro acc
    simp only [List.length_cons, List.cons_append, getHeightLevel, popFromQueue]
    have key : (match (h a).rightChild with
        | some c => pushToQueue (match (h a).leftChild with
            | some c => pushToQueue (rest ++ acc) c
            | none => rest ++ acc) c
        | none => (match (h a).leftChild with
            | some c => pushToQueue (rest ++ acc) c
            | none => rest ++ acc)) = rest ++ (acc ++ childPtrs h a) := by
      unfold childPtrs pushToQueue
      cases (h a).leftChild <;> cases (h a).rightChild <;> simp
    rw [key, ih]
    simp [List.flatMap_cons]

theorem getHeightLoop_succ (h : LimitHeap) (fuel : Nat) (q : List Nat) (height : Int) :
    getHeightLoop (fuel + 1) h q height =
      if q = [] then .ok height
      else getHeightLoop fuel h (q.flatMap (childPtrs h)) (height + 1) := by
  have hlev := getHeightLevel_eq h q []
  simp only [List.append_nil, List.nil_append] at hlev
  rw [getHeightLoop]
  by_cases hq : q = []
  · simp [hq, Queue.size]
  · have : ¬ Queue.size q = 0 := by simpa [Queue.size] using hq
    rw [if_neg this, if_neg hq]
    simp only [Queue.size]
    rw [hlev]

theorem getHeightLoop_ge (h : LimitHeap) :
    ∀ (fuel : Nat) (q : List Nat) (height v : Int),
      getHeightLoop fuel h q height = .ok v → height ≤ v := by
  intro fuel
  induction fuel with
  | zero => intro q height v hrun; simp [getHeightLoop] at hrun
  | succ n ih =>
    intro q height v hrun
    rw [getHeightLoop_succ] at hrun
    split_ifs at hrun with hq
    · simp only [Except.ok.injEq] at hrun
      omega
    · have := ih _ _ _ hrun
      omega

theorem Links.none_iff {h : LimitHeap} {p : Option Nat} {t : Tree} (hl : Links h p t) :
    p = none ↔ t = .nil := by
  cases t with
  | nil => simpa [Links] using hl
  | node l a k r =>
    obtain ⟨hp, -⟩ := hl
    simp [hp]

theorem Shape.links {h : LimitHeap} {t : Tree} :
    ∀ {par p : Option Nat}, Shape h par p t → Links h p t := by
  induction t with
  | nil => intro par p hs; exact hs
  | node l a k r ihl ihr =>
    intro par p hs
    exact ⟨hs.1, ihl hs.2.2.2.1, ihr hs.2.2.2.2⟩

theorem Links.toList_forest {h : LimitHeap} {p : Option Nat} {t : Tree} (hl : Links h p t) :
    Forest h p.toList (if t = .nil then [] else [t]) := by
  cases t with
  | nil =>
    have : p = none := hl
    subst this
    simp [Forest]
  | node l a k r =>
    have hp : p = some a := hl.1
    subst hp
    simp only [Option.toList, reduceCtorEq, if_false]
    exact ⟨by simp, hl, trivial⟩

theorem Forest.append {h : LimitHeap} :
    ∀ {q1 : List Nat} {ts1 : List Tree} {q2 : List Nat} {ts2 : List Tree},
      Forest h q1 ts1 → Forest h q2 ts2 → Forest h (q1 ++ q2) (ts1 ++ ts2) := by
  intro q1
  induction q1 with
  | nil =>
    intro ts1 q2 ts2 h1 h2
    cases ts1 with
    | nil => simpa using h2
    | cons t ts => simp [Forest] at h1
  | cons a q ih =>
    intro ts1 q2 ts2 h1 h2
    cases ts1 with
    | nil => simp [Forest] at h1
    | cons t ts =>
      obtain ⟨hne, hl, hrest⟩ := h1
      exact ⟨hne, hl, ih hrest h2⟩

theorem Forest.step {h : LimitHeap} :
    ∀ {q : List Nat} {ts : List Tree}, Forest h q ts →
      Forest h (q.flatMap (childPtrs h)) (ts.flatMap Tree.kids) := by
  intro q
  induction q with
  | nil =>
    intro ts hf
    cases ts with
    | nil => simp [Forest]
    | cons t ts => simp [Forest] at hf
  | cons a q ih =>
    intro ts hf
    cases ts with
    | nil => simp [Forest] at hf
    | cons t ts =>
      obtain ⟨hne, hl, hrest⟩ := hf
      cases t with
      | nil => exact absurd rfl hne
      | node l b k r =>
        obtain ⟨hp, hll, hlr⟩ := hl
        obtain rfl : a = b := by simpa using hp
        simp only [List.flatMap_cons, Tree.kids, childPtrs]
        exact (hll.toList_forest.append hlr.toList_forest).append (ih hrest)

theorem Forest.nil_iff {h : LimitHeap} {q : List Nat} {ts : List Tree} (hf : Forest h q ts) :
    q = [] ↔ ts = [] := by
  cases q <;> cases ts <;> simp_all [Forest]

theorem forestLevels_append (ts1 ts2 : List Tree) :
    forestLevels (ts1 ++ ts2) = max (forestLevels ts1) (forestLevels ts2) := by
  induction ts1 with
  | nil => simp [forestLevels]
  | cons t ts ih => simp [forestLevels, ih, max_assoc]

theorem forestLevels_kids (t : Tree) : forestLevels t.kids = t.levels - 1 := by
  cases t with
  | nil => simp [Tree.kids, forestLevels, Tree.levels]
  | node l a k r =>
    simp only [Tree.kids, Tree.levels, forestLevels_append]
    have hl : forestLevels (if l = .nil then [] else [l]) = l.levels := by
      by_cases h : l = .nil
      · simp [h, forestLevels, Tree.levels]
      · simp [h, forestLevels]
    have hr : forestLevels (if r = .nil then [] else [r]) = r.levels := by
      by_cases h : r = .nil
      · simp [h, forestLevels, Tree.levels]
      · simp [h, forestLevels]
    rw [hl, hr]
    omega

theorem forestLevels_flatMap_kids (ts : List Tree) :
    forestLevels (ts.flatMap Tree.kids) = forestLevels ts - 1 := by
  induction ts with
  | nil => simp [forestLevels]
  | cons t ts ih =>
    simp only [List.flatMap_cons, forestLevels_append, forestLevels, ih, forestLevels_kids]
    omega

theorem Forest.levels_pos {h : LimitHeap} {q : List Nat} {ts : List Tree}
    (hf : Forest h q ts) (hq : q ≠ []) : 1 ≤ forestLevels ts := by
  cases q with
  | nil => exact absurd rfl hq
  | cons a q =>
    cases ts with
    | nil => simp [Forest] at hf
    | cons t ts =>
      cases t with
      | nil => exact absurd rfl hf.1
      | node l b k r => simp only [forestLevels, Tree.levels]; omega

theorem getHeightLoop_forest {h : LimitHeap} :
    ∀ (fuel : Nat) (q : List Nat) (ts : List Tree) (height : Int), Forest h q ts →
      forestLevels ts + 1 ≤ fuel →
      getHeightLoop fuel h q height = .ok (height + forestLevels ts) := by
  intro fuel
  induction fuel with
  | zero => intro q ts height _ hf; omega
  | succ n ih =>
    intro q ts height hfo hf
    rw [getHeightLoop_succ]
    by_cases hq : q = []
    · have hts : ts = [] := hfo.nil_iff.mp hq
      subst hts
      simp [hq, forestLevels]
    · rw [if_neg hq]
      have hpos := hfo.levels_pos hq
      have hk := forestLevels_flatMap_kids ts
      rw [ih _ _ (height + 1) hfo.step (by omega), hk]
      congr 1
      omega

theorem recHeight_eq_levels (t : Tree) : recHeight t = (t.levels : Int) - 1 := by
  induction t with
  | nil => simp [recHeight, Tree.levels]
  | node l a k r ihl ihr =>
    simp only [recHeight, Tree.levels, ihl, ihr]
    push_cast
    rcases le_total l.levels r.levels with hle | hle
    · rw [max_eq_right (by omega), max_eq_right (by exact_mod_cast hle)]; ring
    · rw [max_eq_left (by omega), max_eq_left (by exact_mod_cast hle)]; ring

theorem getHeight_links {h : LimitHeap} {p : Option Nat} {t : Tree} (hl : Links h p t)
    (fuel : Nat) (hf : t.levels + 1 ≤ fuel) : getHeight fuel h p = .ok (recHeight t) := by
  cases t with
  | nil =>
    have : p = none := hl
    subst this
    simp [getHeight, recHeight]
  | node l a k r =>
    have hp : p = some a := hl.1
    subst hp
    have hfo : Forest h [a] [Tree.node l a k r] := ⟨by simp, hl, trivial⟩
    simp only [getHeight, pushToQueue, List.nil_append]
    rw [getHeightLoop_forest fuel [a] _ (-1) hfo (by simpa [forestLevels] using hf),
      recHeight_eq_levels]
    simp only [forestLevels]
    congr 1

theorem getBalanceFactor_links {h : LimitHeap} {a : Nat} {t : Tree} (hl : Links h (some a) t)
    (fuel : Nat) (hf : t.levels ≤ fuel) :
    getBalanceFactor fuel h a = .ok (recHeight t.right - recHeight t.left) := by
  cases t with
  | nil => simp [Links] at hl
  | node l b k r =>
    obtain ⟨hp, hll, hlr⟩ := hl
    obtain rfl : a = b := by simpa using hp
    simp only [Tree.levels] at hf
    have h1 := getHeight_links hlr fuel (by omega)
    have h2 := getHeight_links hll fuel (by omega)
    have e1 : (if (h a).rightChild ≠ none then getHeight fuel h (h a).rightChild
        else Except.ok (-1)) = .ok (recHeight r) := by
      by_cases hc : (h a).rightChild = none
      · rw [if_neg (by simp [hc]), hlr.none_iff.mp hc]; rfl
      · rw [if_pos hc, h1]
    have e2 : (if (h a).leftChild ≠ none then getHeight fuel h (h a).leftChild
        else Except.ok (-1)) = .ok (recHeight l) := by
      by_cases hc : (h a).leftChild = none
      · rw [if_neg (by simp [hc]), hll.none_iff.mp hc]; rfl
      · rw [if_pos hc, h2]
    simp only [getBalanceFactor, e1, e2, Tree.left, Tree.right]

theorem getHeight_of_no_children {h : LimitHeap} {c : Nat} (hc : childPtrs h c = [])
    (fuel : Nat) (hf : 2 ≤ fuel) : getHeight fuel h (some c) = .ok 0 := by
  obtain ⟨n, rfl⟩ : ∃ n, fuel = n + 2 := ⟨fuel - 2, by omega⟩
  simp only [getHeight, pushToQueue, List.nil_append]
  rw [getHeightLoop_succ, if_neg (by simp), getHeightLoop_succ]
  simp [hc]

theorem getBalanceFactor_small {h : LimitHeap} {limit : Nat} {fuel : Nat} {v : Int}
    (hrun : getHeight fuel h (some limit) = .ok v) (hv : v < 2) :
    ∃ b, getBalanceFactor fuel h limit = .ok b ∧ -1 ≤ b ∧ b ≤ 1 := by
  simp only [getHeight, pushToQueue, List.nil_append] at hrun
  cases fuel with
  | zero => simp [getHeightLoop] at hrun
  | succ f1 =>
    rw [getHeightLoop_succ, if_neg (by simp)] at hrun
    simp only [List.flatMap_cons, List.flatMap_nil, List.append_nil] at hrun
    cases f1 with
    | zero => simp [getHeightLoop] at hrun
    | succ f2 =>
      rw [getHeightLoop_succ] at hrun
      have hkids : ∀ c ∈ childPtrs h limit, getHeight (f2 + 1 + 1) h (some c) = .ok 0 := by
        intro c hc
        have hK : childPtrs h limit ≠ [] := fun e => by rw [e] at hc; simp at hc
        rw [if_neg hK] at hrun
        cases f2 with
        | zero => simp [getHeightLoop] at hrun
        | succ f3 =>
          rw [getHeightLoop_succ] at hrun
          split_ifs at hrun with hK2
          · have hcc : childPtrs h c = [] := by
              have := List.flatMap_eq_nil_iff.mp hK2
              exact this c hc
            exact getHeight_of_no_children hcc _ (by omega)
          · have := getHeightLoop_ge h _ _ _ _ hrun
            omega
      have hr : ∃ r, (if (h limit).rightChild ≠ none then
          getHeight (f2 + 1 + 1) h (h limit).rightChild else Except.ok (-1)) = .ok r ∧
          -1 ≤ r ∧ r ≤ 0 := by
        cases hc : (h limit).rightChild with
        | none => exact ⟨-1, by simp, by omega, by omega⟩
        | some c =>
          refine ⟨0, ?_, by omega, by omega⟩
          rw [if_pos (by simp)]
          exact hkids c (by simp [childPtrs, hc])
      have hl : ∃ l, (if (h limit).leftChild ≠ none then
          getHeight (f2 + 1 + 1) h (h limit).leftChild else Except.ok (-1)) = .ok l ∧
          -1 ≤ l ∧ l ≤ 0 := by
        cases hc : (h limit).leftChild with
        | none => exact ⟨-1, by simp, by omega, by omega⟩
        | some c =>
          refine ⟨0, ?_, by omega, by omega⟩
          rw [if_pos (by simp)]
          exact hkids c (by simp [childPtrs, hc])
      obtain ⟨r, hr1, hr2, hr3⟩ := hr
      obtain ⟨l, hl1, hl2, hl3⟩ := hl
      refine ⟨r - l, ?_, by omega, by omega⟩
      simp only [getBalanceFactor, hr1, hl1]

/-! ## Claims on height, balance and rotations -/

/-- C14: for a finite tree of Limits held in memory by child links, the
breadth-first `getHeight` returns, and its result is the recursive height
(`-1` for an absent node, one more than the greater child height otherwise);
`getBalanceFactor` of the top node returns the recursive height of the right
subtree minus that of the left subtree. -/
theorem getHeight_eq_recHeight (h : LimitHeap) (p : Option Nat) (t : Tree) (hl : Links h p t)
    (fuel : Nat) (hf : t.levels + 1 ≤ fuel) :
    getHeight fuel h p = .ok (recHeight t) ∧
      ∀ a, p = some a →
        getBalanceFactor fuel h a = .ok (recHeight t.right - recHeight t.left) := by
  refine ⟨getHeight_links hl fuel hf, ?_⟩
  rintro a rfl
  exact getBalanceFactor_links hl fuel (by omega)

theorem getHeight_eq_recHeight_witness :
    getHeight 3 (builtHeap [10, 5, 15]) (some 10)
        = .ok (recHeight (.node (.node .nil 5 5 .nil) 10 10 (.node .nil 15 15 .nil))) ∧
      ∀ a, some 10 = some a →
        getBalanceFactor 3 (builtHeap [10, 5, 15]) a
          = .ok (recHeight (Tree.node (.node .nil 5 5 .nil) 10 10 (.node .nil 15 15 .nil)).right
              - recHeight (Tree.node (.node .nil 5 5 .nil) 10 10 (.node .nil 15 15 .nil)).left) :=
  getHeight_eq_recHeight (builtHeap [10, 5, 15]) (some 10)
    (.node (.node .nil 5 5 .nil) 10 10 (.node .nil 15 15 .nil)) (by decide) 3 (by decide)

/-- C20: whenever the assertion of `balanceBranch` as written passes, that is
`getHeight(limit)` returns a value below 2, `getBalanceFactor(limit)` returns
a value among -1, 0, 1, and `balanceBranch` returns with the memory unchanged
(no rotation is called). -/
theorem balanceBranch_returns_unchanged (h : LimitHeap) (limit fuel : Nat) (v : Int)
    (hrun : getHeight fuel h (some limit) = .ok v) (hv : v < 2) :
    (∃ b, getBalanceFactor fuel h limit = .ok b ∧ -1 ≤ b ∧ b ≤ 1) ∧
      balanceBranch fuel h limit = .ok h := by
  obtain ⟨b, hb, h1, h2⟩ := getBalanceFactor_small hrun hv
  refine ⟨⟨b, hb, h1, h2⟩, ?_⟩
  simp only [balanceBranch, hrun, hb]
  rw [if_neg (by simpa using hv), if_neg (by omega), if_neg (by omega)]

theorem balanceBranch_returns_unchanged_witness :
    (∃ b, getBalanceFactor 3 (builtHeap [10, 5, 15]) 10 = .ok b ∧ -1 ≤ b ∧ b ≤ 1) ∧
      balanceBranch 3 (builtHeap [10, 5, 15]) 10 = .ok (builtHeap [10, 5, 15]) :=
  balanceBranch_returns_unchanged (builtHeap [10, 5, 15]) 10 3 1 (by decide) (by decide)

/-- C13, the code on the left chain: in the valid BST built by inserting 30,
20, 10 the node 30 has height 2, and `balanceBranch` on it stops at its
assertion `getHeight(limit) < 2`; no rotation takes place.  Called directly,
`rotateLeftLeft` on 30 puts 20 into the sentinel's slot with 30 as its right
child, but leaves 30 with itself as left child, so 30 is not a leaf. -/
theorem balanceBranch_left_chain_aborts :
    ValidTree (builtHeap [30, 20, 10]) 0 chainTree ∧
      getHeight 4 (builtHeap [30, 20, 10]) (some 30) = .ok 2 ∧
      getBalanceFactor 4 (builtHeap [30, 20, 10]) 30 = .ok (-2) ∧
      balanceBranch 4 (builtHeap [30, 20, 10]) 30 = .error .assertFailed ∧
      rotateLeftLeft (builtHeap [30, 20, 10]) 30 = .ok (rotatedHeap [30, 20, 10] 30) ∧
      (rotatedHeap [30, 20, 10] 30 0).rightChild = some 20 ∧
      (rotatedHeap [30, 20, 10] 30 20).leftChild = some 10 ∧
      (rotatedHeap [30, 20, 10] 30 20).rightChild = some 30 ∧
      (rotatedHeap [30, 20, 10] 30 30).leftChild = some 30 :=
  ⟨by decide, by decide, by decide, rfl, rfl, by decide, by decide, by decide, by decide⟩

/-- C18, the code at a node whose left child has a right child: in the valid
BST built by inserting 30, 20, 10, 25 the node 30 has the left child 20, whose
right child is 25.  After `rotateLeftLeft` on 30 the sentinel's slot holds 20,
the parent of 20 is the sentinel, the parent of 30 is 20 and the right child
of 20 is 30, but the left child of 30 is 30 itself, not 25. -/
theorem rotateLeftLeft_left_child_self :
    ValidTree (builtHeap [30, 20, 10, 25]) 0
        (.node (.node (.node .nil 10 10 .nil) 20 20 (.node .nil 25 25 .nil)) 30 30 .nil) ∧
      (builtHeap [30, 20, 10, 25] 30).leftChild = some 20 ∧
      (builtHeap [30, 20, 10, 25] 20).rightChild = some 25 ∧
      rotateLeftLeft (builtHeap [30, 20, 10, 25]) 30
        = .ok (rotatedHeap [30, 20, 10, 25] 30) ∧
      (rotatedHeap [30, 20, 10, 25] 30 0).rightChild = some 20 ∧
      (rotatedHeap [30, 20, 10, 25] 30 20).parent = some 0 ∧
      (rotatedHeap [30, 20, 10, 25] 30 30).parent = some 20 ∧
      (rotatedHeap [30, 20, 10, 25] 30 20).rightChild = some 30 ∧
      (rotatedHeap [30, 20, 10, 25] 30 30).leftChild = some 30 :=
  ⟨by decide, by decide, by decide, rfl, by decide, by decide, by decide, by decide, by decide⟩

/-- C19, the assertion as written: in the valid BST built by inserting 30, 20,
10 the node 30 has height 2 and `balanceBranch` on it fails its assertion,
while the node 10 has height 0 and `balanceBranch` on it passes the assertion
and returns. -/
theorem balanceBranch_assertion_inverted :
    ValidTree (builtHeap [30, 20, 10]) 0 chainTree ∧
      getHeight 4 (builtHeap [30, 20, 10]) (some 30) = .ok 2 ∧
      balanceBranch 4 (builtHeap [30, 20, 10]) 30 = .error .assertFailed ∧
      getHeight 4 (builtHeap [30, 20, 10]) (some 10) = .ok 0 ∧
      balanceBranch 4 (builtHeap [30, 20, 10]) 10 = .ok (builtHeap [30, 20, 10]) :=
  ⟨by decide, by decide, rfl, by decide, rfl⟩

/-! ## Minimum and maximum -/

theorem getMaximumLoop_spec {h : LimitHeap} {t : Tree} :
    ∀ {par : Option Nat} {b : Nat}, Shape h par (some b) t → t.BST →
      ∀ fuel, t.levels ≤ fuel →
      ∃ a k, getMaximumLoop fuel h b = .ok a ∧ a ∈ t.addrs ∧ k ∈ t.keys ∧
        (h a).limitPrice = .fin k ∧ ∀ x ∈ t.keys, x ≤ k := by
  induction t with
  | nil => intro par b hs; simp [Shape] at hs
  | node l c kc r _ ihr =>
    intro par b hs hb fuel hf
    obtain ⟨hp, hk, -, -, hr⟩ := hs
    obtain rfl : b = c := by simpa using hp
    obtain ⟨hlt, hgt, -, hbr⟩ := hb
    simp only [Tree.levels] at hf
    obtain ⟨n, rfl⟩ : ∃ n, fuel = n + 1 := ⟨fuel - 1, by omega⟩
    rw [getMaximumLoop]
    cases hc : (h b).rightChild with
    | none =>
      rw [hc] at hr
      have hrnil : r = .nil := hr.ptr_none_iff.mp rfl
      subst hrnil
      refine ⟨b, kc, rfl, by simp [Tree.addrs], by simp [Tree.keys], hk, ?_⟩
      intro x hx
      simp only [Tree.keys, List.mem_append, List.mem_cons, List.not_mem_nil, or_false] at hx
      rcases hx with hx | rfl
      · exact le_of_lt (hlt x hx)
      · exact le_refl _
    | some d =>
      rw [hc] at hr
      obtain ⟨a, k, hrun, ha, hkm, hpa, hmax⟩ := ihr hr hbr n (by omega)
      refine ⟨a, k, hrun, by simp [Tree.addrs, ha], by simp [Tree.keys, hkm], hpa, ?_⟩
      intro x hx
      have hkk := hgt k hkm
      simp only [Tree.keys, List.mem_append, List.mem_cons] at hx
      rcases hx with hx | rfl | hx
      · have := hlt x hx
        omega
      · omega
      · exact hmax x hx

theorem getMinimumLoop_spec {h : LimitHeap} {t : Tree} :
    ∀ {par : Option Nat} {b : Nat}, Shape h par (some b) t → t.BST →
      ∀ fuel, t.levels ≤ fuel →
      ∃ a k, getMinimumLoop fuel h b = .ok a ∧ a ∈ t.addrs ∧ k ∈ t.keys ∧
        (h a).limitPrice = .fin k ∧ ∀ x ∈ t.keys, k ≤ x := by
  induction t with
  | nil => intro par b hs; simp [Shape] at hs
  | node l c kc r ihl _ =>
    intro par b hs hb fuel hf
    obtain ⟨hp, hk, -, hl, -⟩ := hs
    obtain rfl : b = c := by simpa using hp
    obtain ⟨hlt, hgt, hbl, -⟩ := hb
    simp only [Tree.levels] at hf
    obtain ⟨n, rfl⟩ : ∃ n, fuel = n + 1 := ⟨fuel - 1, by omega⟩
    rw [getMinimumLoop]
    cases hc : (h b).leftChild with
    | none =>
      rw [hc] at hl
      have hlnil : l = .nil := hl.ptr_none_iff.mp rfl
      subst hlnil
      refine ⟨b, kc, rfl, by simp [Tree.addrs], by simp [Tree.keys], hk, ?_⟩
      intro x hx
      simp only [Tree.keys, List.nil_append, List.mem_cons] at hx
      rcases hx with rfl | hx
      · exact le_refl _
      · exact le_of_lt (hgt x hx)
    | some d =>
      rw [hc] at hl
      obtain ⟨a, k, hrun, ha, hkm, hpa, hmin⟩ := ihl hl hbl n (by omega)
      refine ⟨a, k, hrun, by simp [Tree.addrs, ha], by simp [Tree.keys, hkm], hpa, ?_⟩
      intro x hx
      have hkk := hlt k hkm
      simp only [Tree.keys, List.mem_append, List.mem_cons] at hx
      rcases hx with hx | rfl | hx
      · exact hmin x hx
      · omega
      · have := hgt x hx
        omega

/-- C15: on a non-empty valid sentinel-rooted BST, `getMaximumLimit(root)`
returns a node below the sentinel whose price is the greatest of the tree,
and `getMinimumLimit(root)` returns a node below the sentinel whose price is
the least among the nodes below the sentinel. -/
theorem getMaximumLimit_getMinimumLimit_root (h : LimitHeap) (root : Nat) (t : Tree)
    (hv : ValidTree h root t) (hne : t ≠ .nil) (fuel : Nat) (hf : t.levels + 1 ≤ fuel) :
    (∃ a k, getMaximumLimit fuel h root = .ok a ∧ a ∈ t.addrs ∧
      (h a).limitPrice = .fin k ∧ ∀ x ∈ t.keys, x ≤ k) ∧
    (∃ a k, getMinimumLimit fuel h root = .ok a ∧ a ∈ t.addrs ∧
      (h a).limitPrice = .fin k ∧ ∀ x ∈ t.keys, k ≤ x) := by
  obtain ⟨-, hpar, -, hs, hb⟩ := hv
  obtain ⟨n, rfl⟩ : ∃ n, fuel = n + 1 := ⟨fuel - 1, by omega⟩
  cases hc : (h root).rightChild with
  | none =>
    rw [hc] at hs
    exact absurd (hs.ptr_none_iff.mp rfl) hne
  | some b =>
    rw [hc] at hs
    constructor
    · obtain ⟨a, k, hrun, ha, -, hpa, hmax⟩ := getMaximumLoop_spec hs hb n (by omega)
      refine ⟨a, k, ?_, ha, hpa, hmax⟩
      rw [getMaximumLimit, getMaximumLoop, hc]
      exact hrun
    · obtain ⟨a, k, hrun, ha, -, hpa, hmin⟩ := getMinimumLoop_spec hs hb (n + 1) (by omega)
      refine ⟨a, k, ?_, ha, hpa, hmin⟩
      simp only [getMinimumLimit, limitIsRoot, hpar, if_true, ne_eq, one_ne_zero,
        not_false_eq_true, hc]
      exact hrun

theorem getMaximumLimit_getMinimumLimit_root_witness :
    (∃ a k, getMaximumLimit 4 (builtHeap [10, 5, 15, 3, 7]) 0 = .ok a ∧ a ∈ test5Tree.addrs ∧
      (builtHeap [10, 5, 15, 3, 7] a).limitPrice = .fin k ∧ ∀ x ∈ test5Tree.keys, x ≤ k) ∧
    (∃ a k, getMinimumLimit 4 (builtHeap [10, 5, 15, 3, 7]) 0 = .ok a ∧ a ∈ test5Tree.addrs ∧
      (builtHeap [10, 5, 15, 3, 7] a).limitPrice = .fin k ∧ ∀ x ∈ test5Tree.keys, k ≤ x) :=
  getMaximumLimit_getMinimumLimit_root (builtHeap [10, 5, 15, 3, 7]) 0 test5Tree (by decide)
    (by decide) 4 (by decide)

/-! ## Order lists: removal anywhere -/

theorem OrderListRev.rev_head_eq {o : OrderHeap} {next p : Option Nat} {rs : List Nat}
    (hl : OrderListRev o next p rs) : p = rs.head? := by
  cases rs with
  | nil => exact hl
  | cons a rest => exact hl.1

theorem OrderList.rev_aux {o : OrderHeap} :
    ∀ (rs : List Nat) (prev p : Option Nat) (acc : List Nat), OrderList o prev p rs →
      OrderListRev o p prev acc →
      OrderListRev o none (acc.reverse ++ rs).getLast? (rs.reverse ++ acc) := by
  intro rs
  induction rs with
  | nil =>
    intro prev p acc hl hr
    have hp : p = none := hl
    subst hp
    have := hr.rev_head_eq
    simp only [List.append_nil, List.getLast?_reverse, List.reverse_nil, List.nil_append]
    rw [← this]
    exact hr
  | cons a rest ih =>
    intro prev p acc hl hr
    obtain ⟨hp, hprev, hrest⟩ := hl
    subst hp
    have hr' : OrderListRev o (o a).nextOrder (some a) (a :: acc) :=
      ⟨rfl, rfl, by rw [hprev]; exact hr⟩
    have := ih (some a) (o a).nextOrder (a :: acc) hrest hr'
    simpa using this

theorem WellFormed.rev {m : Mem} {l : Nat} {rs : List Nat} (hw : WellFormed m l rs) :
    OrderListRev m.orders none (m.limits l).tailOrder rs.reverse := by
  have := OrderList.rev_aux rs none (m.limits l).headOrder [] hw.1 rfl
  simpa [hw.2.1] using this

theorem OrderList.mid {o : OrderHeap} {pv a : Nat} {rest xs : List Nat} :
    ∀ {prev p : Option Nat}, OrderList o prev p (xs ++ pv :: a :: rest) →
      (o a).prevOrder = some pv ∧ (o pv).nextOrder = some a := by
  induction xs with
  | nil => intro prev p hl; exact ⟨hl.2.2.2.1, hl.2.2.1⟩
  | cons x xs ih => intro prev p hl; exact ih hl.2.2

theorem OrderList.splice {o : OrderHeap} (o' : OrderHeap) {pv a nx : Nat} {xs ys : List Nat}
    (hsame : ∀ c, c ≠ pv → c ≠ nx →
      (o' c).nextOrder = (o c).nextOrder ∧ (o' c).prevOrder = (o c).prevOrder)
    (hpvn : (o' pv).nextOrder = some nx) (hpvp : (o' pv).prevOrder = (o pv).prevOrder)
    (hnxp : (o' nx).prevOrder = some pv) (hnxn : (o' nx).nextOrder = (o nx).nextOrder)
    (hys : pv ∉ ys ∧ nx ∉ ys) :
    ∀ {prev p : Option Nat}, OrderList o prev p (xs ++ pv :: a :: nx :: ys) →
      pv ∉ xs → nx ∉ xs → OrderList o' prev p (xs ++ pv :: nx :: ys) := by
  induction xs with
  | nil =>
    intro prev p hl _ _
    obtain ⟨hp, hprev, -, -, -, -, hrest⟩ := hl
    refine ⟨hp, by rw [hpvp]; exact hprev, by rw [hpvn], hnxp, ?_⟩
    rw [hnxn]
    apply hrest.links_frame
    intro c hc
    exact hsame c (fun e => hys.1 (e ▸ hc)) (fun e => hys.2 (e ▸ hc))
  | cons x xs ih =>
    intro prev p hl hpx hnx
    obtain ⟨hp, hprev, hrest⟩ := hl
    have hx1 : x ≠ pv := fun e => hpx (by simp [e])
    have hx2 : x ≠ nx := fun e => hnx (by simp [e])
    obtain ⟨hs1, hs2⟩ := hsame x hx1 hx2
    refine ⟨hp, by rw [hs2]; exact hprev, ?_⟩
    rw [hs1]
    exact ih hrest (fun hm => hpx (by simp [hm])) (fun hm => hnx (by simp [hm]))

theorem head_ne_of_not_mem {o : Nat} {xs : List Nat} (b : Nat) (ys : List Nat)
    (ho : o ∉ xs ++ [b]) : ((xs ++ [b]) ++ o :: ys).head? ≠ some o := by
  cases xs with
  | nil =>
    simp only [List.nil_append, List.mem_singleton] at ho
    simpa using Ne.symm ho
  | cons x xs =>
    simp only [List.cons_append, List.mem_cons, not_or] at ho
    simpa using Ne.symm ho.1

theorem removeOrder_spec {m : Mem} {l o : Nat} {rs : List Nat} (hw : WellFormed m l rs)
    (ho : o ∈ rs) (hpl : (m.orders o).parentLimit = some l) :
    ∃ m', removeOrder m o = .ok (1, m') ∧ WellFormed m' l (rs.erase o) ∧
      (∀ c, c ≠ l → m'.limits c = m.limits c) ∧
      m'.limits l = { m.limits l with headOrder := (m'.limits l).headOrder,
                                      tailOrder := (m'.limits l).tailOrder } := by
  obtain ⟨hl, ht, hnd⟩ := hw
  obtain ⟨xs, ys, rfl⟩ := List.append_of_mem ho
  have hoxs : o ∉ xs := fun hm => (List.nodup_append.mp hnd).2.2 hm (by simp)
  have hoys : o ∉ ys := (List.nodup_cons.mp (List.nodup_append.mp hnd).2.1).1
  have herase : (xs ++ o :: ys).erase o = xs ++ ys := by
    rw [List.erase_append_right _ hoxs, List.erase_cons_head]
  have hndxy : (xs ++ ys).Nodup := by
    rw [← herase]; exact hnd.erase o
  rw [herase]
  rcases List.eq_nil_or_concat xs with rfl | ⟨xs', pv, rfl⟩
  · -- `o` is the head
    have hhead : (m.limits l).headOrder = some o := hl.1
    have hprev : (m.orders o).prevOrder = none := hl.2.1
    cases ys with
    | nil =>
      have htail : (m.limits l).tailOrder = some o := by simpa using ht
      have hrun : removeOrder m o = .ok (1,
          { limits := Function.update m.limits l
              { m.limits l with headOrder := none, tailOrder := none },
            orders := m.orders }) := by
        simp [removeOrder, hpl, hhead, htail]
      refine ⟨_, hrun, ?_, ?_, ?_⟩
      · exact ⟨by simp [OrderList], by simp, List.nodup_nil⟩
      · intro c hc; simp [Function.update, hc]
      · simp
    | cons nx ys' =>
      have hnext : (m.orders o).nextOrder = some nx := (OrderList.mid hl).2
      have hnxo : nx ≠ o := fun e => hoys (by simp [e])
      have htail : (m.limits l).tailOrder ≠ some o := by
        rw [ht]
        simp only [List.nil_append, List.getLast?_cons_cons]
        intro hc
        exact hoys (List.mem_of_getLast?_eq_some hc)
      have hrun : removeOrder m o = .ok (1,
          { limits := Function.update m.limits l { m.limits l with headOrder := some nx },
            orders := Function.update m.orders nx { m.orders nx with prevOrder := none } }) := by
        simp [removeOrder, hpl, hhead, htail, hprev, hnext, Function.update, Ne.symm hnxo]
      refine ⟨_, hrun, ⟨?_, ?_, hndxy⟩, ?_, ?_⟩
      · obtain ⟨-, -, -, -, hrest⟩ := hl
        refine ⟨by simp, by simp, ?_⟩
        simp only [Function.update_same]
        apply hrest.links_frame
        intro c hc
        have hcn : c ≠ nx := by
          rintro rfl
          simp only [List.nil_append, List.nodup_cons] at hndxy
          exact hndxy.1 hc
        simp [Function.update, hcn]
      · simpa [List.getLast?_cons_cons] using ht
      · intro c hc; simp [Function.update, hc]
      · simp
  · simp only [List.concat_eq_append] at hl ht hnd hoxs herase hndxy ⊢
    have hhead : (m.limits l).headOrder ≠ some o := by
      rw [hl.head_eq]
      exact head_ne_of_not_mem pv ys hoxs
    have hl' : OrderList m.orders none (m.limits l).headOrder (xs' ++ pv :: o :: ys) := by
      simpa using hl
    have hprev : (m.orders o).prevOrder = some pv := (OrderList.mid hl').1
    have hpvo : pv ≠ o := fun e => hoxs (by simp [e])
    cases ys with
    | nil =>
      have hl2 : OrderList m.orders none (m.limits l).headOrder (xs' ++ [pv, o]) := hl'
      have hnext : (m.orders o).nextOrder = none := hl.last_next
      have htail : (m.limits l).tailOrder = some o := by simpa using ht
      have hrun : removeOrder m o = .ok (1,
          { limits := Function.update m.limits l { m.limits l with tailOrder := some pv },
            orders := Function.update m.orders pv { m.orders pv with nextOrder := none } }) := by
        simp [removeOrder, hpl, hhead, htail, hprev, hnext, Function.update, Ne.symm hpvo]
      have hpvx : pv ∉ xs' := by
        have := (List.nodup_append.mp hndxy).1
        have := List.nodup_append.mp this
        intro hm
        exact this.2.2 hm (by simp)
      refine ⟨_, hrun, ⟨?_, by simp, hndxy⟩, ?_, ?_⟩
      · simp only [List.append_nil, Function.update_same]
        exact hl2.drop_last hpvx
      · intro c hc; simp [Function.update, hc]
      · simp
    | cons nx ys' =>
      have hl3 : OrderList m.orders none (m.limits l).headOrder
          ((xs' ++ [pv]) ++ o :: nx :: ys') := hl
      have hnext : (m.orders o).nextOrder = some nx := (OrderList.mid hl3).2
      have hnxo : nx ≠ o := fun e => hoys (by simp [e])
      have hnd2 : (xs' ++ pv :: nx :: ys').Nodup := by simpa using hndxy
      have hnd3 := List.nodup_append.mp hnd2
      have hpvx : pv ∉ xs' := fun hm => hnd3.2.2 hm (by simp)
      have hnxx : nx ∉ xs' := fun hm => hnd3.2.2 hm (by simp)
      have hnd4 := List.nodup_cons.mp hnd3.2.1
      have hpvnx : pv ≠ nx := fun e => hnd4.1 (by simp [e])
      have hpvy : pv ∉ ys' := fun hm => hnd4.1 (by simp [hm])
      have hnxy : nx ∉ ys' := (List.nodup_cons.mp hnd4.2).1
      have hrun : removeOrder m o = .ok (1,
          { limits := m.limits,
            orders := Function.update
              (Function.update m.orders pv { m.orders pv with nextOrder := some nx }) nx
              { (Function.update m.orders pv { m.orders pv with nextOrder := some nx }) nx with
                prevOrder := some pv } }) := by
        simp [removeOrder, hpl, hhead, hprev, hnext, Function.update, Ne.symm hpvo]
      refine ⟨_, hrun, ⟨?_, ?_, hndxy⟩, fun c _ => rfl, rfl⟩
      · have hgoal := OrderList.splice
          (Function.update
              (Function.update m.orders pv { m.orders pv with nextOrder := some nx }) nx
              { (Function.update m.orders pv { m.orders pv with nextOrder := some nx }) nx with
                prevOrder := some pv })
          (fun c h1 h2 => by simp [Function.update, h1, h2])
          (by simp [Function.update, hpvnx])
          (by simp [Function.update, hpvnx])
          (by simp [Function.update])
          (by simp [Function.update, Ne.symm hpvnx])
          ⟨hpvy, hnxy⟩ hl' hpvx hnxx
        simpa using hgoal
      · simpa [List.getLast?_cons_cons] using ht

/-- C16: for an order `o` resident in the well-formed list `rs` of its
`parentLimit`, `removeOrder` returns 1; afterwards the Limit's list, read from
`headOrder` by `nextOrder`, is `rs` without `o` (the others in their former
order), read from `tailOrder` by `prevOrder` it is the reverse of that, and
the Limit's `size`, `orderCount` and `totalVolume` are unchanged. -/
theorem removeOrder_detaches (m : Mem) (l o : Nat) (rs : List Nat)
    (hw : WellFormed m l rs) (ho : o ∈ rs) (hpl : (m.orders o).parentLimit = some l) :
    ∃ m', removeOrder m o = .ok (1, m') ∧ WellFormed m' l (rs.erase o) ∧
      OrderListRev m'.orders none (m'.limits l).tailOrder (rs.erase o).reverse ∧
      (m'.limits l).size = (m.limits l).size ∧
      (m'.limits l).orderCount = (m.limits l).orderCount ∧
      (m'.limits l).totalVolume = (m.limits l).totalVolume := by
  obtain ⟨m', hrun, hw', -, hrec⟩ := removeOrder_spec hw ho hpl
  exact ⟨m', hrun, hw', hw'.rev, by rw [hrec], by rw [hrec], by rw [hrec]⟩

theorem removeOrder_detaches_witness :
    ∃ m', removeOrder (pushAll 0 bookMem [1, 2, 3]) 2 = .ok (1, m') ∧
      WellFormed m' 0 ([3, 2, 1].erase 2) ∧
      OrderListRev m'.orders none (m'.limits 0).tailOrder ([3, 2, 1].erase 2).reverse ∧
      (m'.limits 0).size = ((pushAll 0 bookMem [1, 2, 3]).limits 0).size ∧
      (m'.limits 0).orderCount = ((pushAll 0 bookMem [1, 2, 3]).limits 0).orderCount ∧
      (m'.limits 0).totalVolume = ((pushAll 0 bookMem [1, 2, 3]).limits 0).totalVolume :=
  removeOrder_detaches (pushAll 0 bookMem [1, 2, 3]) 0 2 [3, 2, 1] (by decide) (by decide)
    (by decide)

/-! ## Copy of a Limit -/

theorem NextChain.next_frame {o o' : OrderHeap} {rs : List Nat} :
    ∀ {p : Option Nat}, NextChain o p rs → (∀ a, (o' a).nextOrder = (o a).nextOrder) →
      NextChain o' p rs := by
  induction rs with
  | nil => intro p hc _; exact hc
  | cons a rest ih =>
    intro p hc hfr
    exact ⟨hc.1, by rw [hfr a]; exact ih hc.2 hfr⟩

theorem OrderList.nextChain {o : OrderHeap} {rs : List Nat} :
    ∀ {prev p : Option Nat}, OrderList o prev p rs → NextChain o p rs := by
  induction rs with
  | nil => intro prev p hl; exact hl
  | cons a rest ih => intro prev p hl; exact ⟨hl.1, ih hl.2.2⟩

theorem copyLimitLoop_spec (tar : Nat) :
    ∀ (rs : List Nat) (o : OrderHeap) (p : Option Nat), NextChain o p rs →
      ∀ fuel, rs.length + 1 ≤ fuel →
      ∃ o', copyLimitLoop fuel o p tar = .ok o' ∧
        (∀ a ∈ rs, (o' a).parentLimit = some tar) ∧
        (∀ a, a ∉ rs → o' a = o a) ∧
        (∀ a, o' a = { o a with parentLimit := (o' a).parentLimit }) := by
  intro rs
  induction rs with
  | nil =>
    intro o p hc fuel hf
    have hp : p = none := hc
    subst hp
    obtain ⟨n, rfl⟩ : ∃ n, fuel = n + 1 := ⟨fuel - 1, by omega⟩
    exact ⟨o, by simp [copyLimitLoop], by simp, fun _ _ => rfl, fun _ => rfl⟩
  | cons a rest ih =>
    intro o p hc fuel hf
    obtain ⟨hp, hrest⟩ := hc
    subst hp
    simp only [List.length_cons] at hf
    obtain ⟨n, rfl⟩ : ∃ n, fuel = n + 1 := ⟨fuel - 1, by omega⟩
    have hnext : ∀ c, ((Function.update o a { o a with parentLimit := some tar }) c).nextOrder
        = (o c).nextOrder := by
      intro c
      by_cases e : c = a
      · subst e; simp
      · simp [Function.update, e]
    obtain ⟨o', hrun, hin, hout, hrec⟩ := ih
      (Function.update o a { o a with parentLimit := some tar }) (o a).nextOrder
      (hrest.next_frame hnext) n (by omega)
    refine ⟨o', ?_, ?_, ?_, ?_⟩
    · rw [copyLimitLoop]
      simp only [Function.update_same]
      exact hrun
    · intro c hc
      by_cases hcr : c ∈ rest
      · exact hin c hcr
      · have hca : c = a := by
          rcases List.mem_cons.mp hc with e | e
          · exact e
          · exact absurd e hcr
        subst hca
        rw [hout c hcr]
        simp
    · intro c hc
      simp only [List.mem_cons, not_or] at hc
      rw [hout c hc.2]
      simp [Function.update, hc.1]
    · intro c
      have h1 := hrec c
      by_cases e : c = a
      · subst e
        rw [h1]
        simp
      · rw [h1]
        simp [Function.update, e]

theorem copyLimit_eq (m : Mem) (src tar fuel : Nat) :
    copyLimit fuel m src tar =
      match copyLimitLoop fuel m.orders (m.limits src).headOrder tar with
      | .error e => .error e
      | .ok o1 => .ok { limits := Function.update m.limits tar
                          { m.limits src with parent := (m.limits tar).parent,
                                              leftChild := (m.limits tar).leftChild,
                                              rightChild := (m.limits tar).rightChild },
                        orders := o1 } := by
  unfold copyLimit
  by_cases e : src = tar
  · subst e
    simp [Function.update]
  · simp [Function.update, e]

/-- C17: for a source Limit whose order list is a finite chain by `nextOrder`
ending in `NULL`, `copyLimit` returns; afterwards the target's `limitPrice`,
`size`, `totalVolume`, `orderCount`, `headOrder` and `tailOrder` are the
source's, every order of the list has the target as `parentLimit`, the
target's `parent`, `leftChild` and `rightChild` and every field of the source
are unchanged, as are all other Limits and all other fields of the orders. -/
theorem copyLimit_copies (m : Mem) (src tar : Nat) (rs : List Nat)
    (hc : NextChain m.orders (m.limits src).headOrder rs)
    (fuel : Nat) (hf : rs.length + 1 ≤ fuel) :
    ∃ m', copyLimit fuel m src tar = .ok m' ∧
      m'.limits tar = { m.limits src with parent := (m.limits tar).parent,
                                          leftChild := (m.limits tar).leftChild,
                                          rightChild := (m.limits tar).rightChild } ∧
      (∀ a ∈ rs, (m'.orders a).parentLimit = some tar) ∧
      m'.limits src = m.limits src ∧
      (∀ c, c ≠ tar → m'.limits c = m.limits c) ∧
      (∀ a, a ∉ rs → m'.orders a = m.orders a) ∧
      (∀ a, m'.orders a = { m.orders a with parentLimit := (m'.orders a).parentLimit }) := by
  obtain ⟨o', hrun, hin, hout, hrec⟩ := copyLimitLoop_spec tar rs m.orders _ hc fuel hf
  refine ⟨_, by rw [copyLimit_eq, hrun], by simp, hin, ?_, ?_, hout, hrec⟩
  · by_cases e : src = tar
    · subst e; simp
    · simp [Function.update, e]
  · intro c hc'
    simp [Function.update, hc']

theorem copyLimit_copies_witness :
    ∃ m', copyLimit 4 (pushAll 0 bookMem [1, 2, 3]) 0 7 = .ok m' ∧
      m'.limits 7 = { (pushAll 0 bookMem [1, 2, 3]).limits 0 with
                        parent := ((pushAll 0 bookMem [1, 2, 3]).limits 7).parent,
                        leftChild := ((pushAll 0 bookMem [1, 2, 3]).limits 7).leftChild,
                        rightChild := ((pushAll 0 bookMem [1, 2, 3]).limits 7).rightChild } ∧
      (∀ a ∈ [3, 2, 1], (m'.orders a).parentLimit = some 7) ∧
      m'.limits 0 = (pushAll 0 bookMem [1, 2, 3]).limits 0 ∧
      (∀ c, c ≠ 7 → m'.limits c = (pushAll 0 bookMem [1, 2, 3]).limits c) ∧
      (∀ a, a ∉ [3, 2, 1] → m'.orders a = (pushAll 0 bookMem [1, 2, 3]).orders a) ∧
      (∀ a, m'.orders a = { (pushAll 0 bookMem [1, 2, 3]).orders a with
                              parentLimit := (m'.orders a).parentLimit }) :=
  copyLimit_copies (pushAll 0 bookMem [1, 2, 3]) 0 7 [3, 2, 1] (by decide) 4 (by decide)

end HFT
